import Mathlib

/-!
Verification of the `bonde-json-schema` service (`src/main.py`,
`src/schemas/discovery.py`) against its natural-language specification.

The development shallowly embeds the Python code:
* JSON documents (Python dicts / lists / scalars produced by `json.load`)
  become the mutual inductive family `Json` / `JsonList` / `JsonFields`;
  dicts keep their insertion order, so objects are key-value sequences.
* `SchemaDiscovery._normalize_schema_ids`, `_normalize_refs`,
  `_parse_version`, `get_schema(..., "latest")`, `get_all_schemas_dict`
  and `_discover_versions` become pure functions of the same names.
* `resolve_references` from `main.py` mutates a Python `set` shared by the
  whole call; the embedding threads that set explicitly
  (`List String`-valued state).  The `jsonschema` `RefResolver` is not part
  of this repository; per the specification it is modelled as a lookup
  table from `$id` strings to documents, and a failed lookup as the raised
  resolver error whose text names the unresolvable reference.
* Python exceptions that the code does not catch are modelled by `Option`:
  `none` means the corresponding Python call raises.
-/

set_option linter.unusedVariables false

namespace BondeJsonSchema

mutual

/-- JSON documents as produced by `json.load`: Python dicts keep insertion
order, so objects are ordered key-value sequences. -/
inductive Json where
  | null : Json
  | bool (b : Bool) : Json
  | num (n : Int) : Json
  | str (s : String) : Json
  | arr (items : JsonList) : Json
  | obj (fields : JsonFields) : Json

inductive JsonList where
  | nil : JsonList
  | cons (head : Json) (tail : JsonList) : JsonList

inductive JsonFields where
  | nil : JsonFields
  | cons (key : String) (value : Json) (tail : JsonFields) : JsonFields

end

/-- Mutual structural induction over the `Json` family. -/
theorem json_ind (P : Json → Prop) (Q : JsonList → Prop) (R : JsonFields → Prop)
    (h0 : P .null) (hb : ∀ b, P (.bool b)) (hn : ∀ n, P (.num n))
    (hs : ∀ s, P (.str s))
    (ha : ∀ xs, Q xs → P (.arr xs))
    (ho : ∀ fs, R fs → P (.obj fs))
    (hqn : Q .nil) (hqc : ∀ x xs, P x → Q xs → Q (.cons x xs))
    (hrn : R .nil) (hrc : ∀ k v t, P v → R t → R (.cons k v t)) :
    (∀ d, P d) ∧ (∀ l, Q l) ∧ (∀ fs, R fs) :=
  ⟨fun d => Json.rec h0 hb hn hs ha ho hqn hqc hrn hrc d,
   fun l => JsonList.rec h0 hb hn hs ha ho hqn hqc hrn hrc l,
   fun fs => JsonFields.rec h0 hb hn hs ha ho hqn hqc hrn hrc fs⟩

/-- Spine induction for `JsonFields` alone (the mutual recursor is not usable
by the `induction` tactic). -/
theorem jsonFields_ind (R : JsonFields → Prop) (hnil : R .nil)
    (hcons : ∀ k v t, R t → R (.cons k v t)) : ∀ fs, R fs :=
  (json_ind (fun _ => True) (fun _ => True) R trivial (fun _ => trivial)
    (fun _ => trivial) (fun _ => trivial) (fun _ _ => trivial) (fun _ _ => trivial)
    trivial (fun _ _ _ _ => trivial) hnil (fun k v t _ ht => hcons k v t ht)).2.2

/-- Spine induction for `JsonList` alone. -/
theorem jsonList_ind (Q : JsonList → Prop) (hnil : Q .nil)
    (hcons : ∀ x xs, Q xs → Q (.cons x xs)) : ∀ l, Q l :=
  (json_ind (fun _ => True) Q (fun _ => True) trivial (fun _ => trivial)
    (fun _ => trivial) (fun _ => trivial) (fun _ _ => trivial) (fun _ _ => trivial)
    hnil (fun x xs _ hxs => hcons x xs hxs) trivial
    (fun _ _ _ _ _ => trivial)).2.1

mutual

def jsonBeq : Json → Json → Bool
  | .null, .null => true
  | .bool a, .bool b => a == b
  | .num a, .num b => a == b
  | .str a, .str b => a == b
  | .arr a, .arr b => jsonListBeq a b
  | .obj a, .obj b => jsonFieldsBeq a b
  | _, _ => false

def jsonListBeq : JsonList → JsonList → Bool
  | .nil, .nil => true
  | .cons x xs, .cons y ys => jsonBeq x y && jsonListBeq xs ys
  | _, _ => false

def jsonFieldsBeq : JsonFields → JsonFields → Bool
  | .nil, .nil => true
  | .cons k₁ v₁ xs, .cons k₂ v₂ ys => k₁ == k₂ && jsonBeq v₁ v₂ && jsonFieldsBeq xs ys
  | _, _ => false

end

theorem jsonBeq_iff :
    (∀ a b : Json, jsonBeq a b = true ↔ a = b)
      ∧ (∀ a b : JsonList, jsonListBeq a b = true ↔ a = b)
      ∧ (∀ a b : JsonFields, jsonFieldsBeq a b = true ↔ a = b) := by
  refine json_ind (fun a => ∀ b, jsonBeq a b = true ↔ a = b)
    (fun a => ∀ b, jsonListBeq a b = true ↔ a = b)
    (fun a => ∀ b, jsonFieldsBeq a b = true ↔ a = b)
    ?_ ?_ ?_ ?_ ?_ ?_ ?_ ?_ ?_ ?_
  · intro b; cases b <;> simp [jsonBeq]
  · intro b0 b; cases b <;> simp [jsonBeq]
  · intro n0 b; cases b <;> simp [jsonBeq]
  · intro s0 b; cases b <;> simp [jsonBeq]
  · intro xs ih b; cases b <;> simp [jsonBeq]
    exact ih _
  · intro fs ih b; cases b <;> simp [jsonBeq]
    exact ih _
  · intro b; cases b <;> simp [jsonListBeq]
  · intro x xs ihx ihxs b
    cases b <;> simp [jsonListBeq, ihx _, ihxs _]
  · intro b; cases b <;> simp [jsonFieldsBeq]
  · intro k v t ihv iht b
    cases b <;> simp [jsonFieldsBeq, ihv _, iht _]
    tauto

instance : DecidableEq Json := fun a b =>
  decidable_of_iff (jsonBeq a b = true) (jsonBeq_iff.1 a b)

instance : DecidableEq JsonList := fun a b =>
  decidable_of_iff (jsonListBeq a b = true) (jsonBeq_iff.2.1 a b)

instance : DecidableEq JsonFields := fun a b =>
  decidable_of_iff (jsonFieldsBeq a b = true) (jsonBeq_iff.2.2 a b)

mutual

/-- Structural size of a document; fuel bounds for `resolveF` are computed
from it. -/
def jsonSize : Json → Nat
  | .null => 1
  | .bool _ => 1
  | .num _ => 1
  | .str _ => 1
  | .arr items => 1 + jsonListSize items
  | .obj fields => 1 + jsonFieldsSize fields

def jsonListSize : JsonList → Nat
  | .nil => 1
  | .cons x xs => 1 + jsonSize x + jsonListSize xs

def jsonFieldsSize : JsonFields → Nat
  | .nil => 1
  | .cons _ v xs => 1 + jsonSize v + jsonFieldsSize xs

end

theorem jsonSize_pos (d : Json) : 0 < jsonSize d := by
  cases d <;> simp [jsonSize]

/-- Python's `key in dict` / `dict[key]` on an ordered dict (first match;
keys of real dicts are unique). -/
def JsonFields.lookup : JsonFields → String → Option Json
  | .nil, _ => none
  | .cons k v t, key => if key = k then some v else t.lookup key

/-- Python's `dict.get(key, default)`. -/
def JsonFields.getD (fields : JsonFields) (key : String) (default : Json) : Json :=
  (fields.lookup key).getD default

/-! ## String helpers modelling the Python string primitives used by the code -/

/-- Boolean list-prefix test (self-contained counterpart of `isPrefixOf`). -/
def listPrefixB : List Char → List Char → Bool
  | [], _ => true
  | _ :: _, [] => false
  | a :: as, b :: bs => a = b && listPrefixB as bs

theorem listPrefixB_iff : ∀ (p l : List Char), listPrefixB p l = true ↔ ∃ t, p ++ t = l := by
  intro p
  induction p with
  | nil => intro l; simp [listPrefixB]
  | cons a as ih =>
    intro l
    cases l with
    | nil => simp [listPrefixB]
    | cons b bs =>
      simp only [listPrefixB, Bool.and_eq_true, decide_eq_true_eq, ih bs]
      constructor
      · rintro ⟨rfl, t, rfl⟩; exact ⟨t, rfl⟩
      · rintro ⟨t, ht⟩
        injection ht with h1 h2
        exact ⟨h1, t, h2⟩

/-- Python's `s.startswith(p)`. -/
def pyStartsWith (s p : String) : Bool := listPrefixB p.data s.data

theorem string_data_append (s t : String) : (s ++ t).data = s.data ++ t.data := by
  cases s; cases t; rfl

theorem pyStartsWith_append {s p : String} (t : String) (h : pyStartsWith s p = true) :
    pyStartsWith (s ++ t) p = true := by
  unfold pyStartsWith at h ⊢
  rw [string_data_append]
  rw [listPrefixB_iff] at h ⊢
  obtain ⟨u, hu⟩ := h
  exact ⟨u ++ t.data, by rw [← hu]; simp⟩

theorem pyStartsWith_http_not_slash {s : String} (h : pyStartsWith s "http" = true) :
    pyStartsWith s "/" = false := by
  unfold pyStartsWith at h ⊢
  rw [listPrefixB_iff] at h
  obtain ⟨u, hu⟩ := h
  have hdata : s.data = 'h' :: ('t' :: ('t' :: ('p' :: u))) := by rw [← hu]; rfl
  rw [hdata]
  rfl

/-- Python's `str.split('.')` on character lists: splits at every `'.'`,
keeping empty groups. -/
def splitDot : List Char → List (List Char)
  | [] => [[]]
  | c :: rest =>
    if c = '.' then [] :: splitDot rest
    else
      match splitDot rest with
      | [] => [[c]]
      | g :: gs => (c :: g) :: gs

theorem splitDot_ne_nil : ∀ l : List Char, splitDot l ≠ [] := by
  intro l
  induction l with
  | nil => simp [splitDot]
  | cons c rest ih =>
    simp only [splitDot]
    by_cases hc : c = '.'
    · simp [hc]
    · simp only [if_neg hc]
      cases h : splitDot rest with
      | nil => simp
      | cons g gs => simp

theorem splitDot_no_dot {xs : List Char} (h : '.' ∉ xs) : splitDot xs = [xs] := by
  induction xs with
  | nil => rfl
  | cons c rest ih =>
    have hc : c ≠ '.' := fun hcc => h (hcc ▸ List.mem_cons_self _ _)
    have hrest : '.' ∉ rest := fun hr => h (List.mem_cons_of_mem _ hr)
    simp only [splitDot, if_neg hc, ih hrest]

theorem splitDot_append {xs : List Char} (ys : List Char) (h : '.' ∉ xs) :
    splitDot (xs ++ '.' :: ys) = xs :: splitDot ys := by
  induction xs with
  | nil => simp [splitDot]
  | cons c rest ih =>
    have hc : c ≠ '.' := fun hcc => h (hcc ▸ List.mem_cons_self _ _)
    have hrest : '.' ∉ rest := fun hr => h (List.mem_cons_of_mem _ hr)
    simp only [List.cons_append, splitDot, if_neg hc]
    rw [show rest.append ('.' :: ys) = rest ++ '.' :: ys from rfl, ih hrest]

/-- The digit characters, used to relate rendered numerals to their values. -/
def digitChar : Nat → Char
  | 0 => '0' | 1 => '1' | 2 => '2' | 3 => '3' | 4 => '4'
  | 5 => '5' | 6 => '6' | 7 => '7' | 8 => '8' | _ => '9'

theorem digitChar_toNat {d : Nat} (h : d < 10) : (digitChar d).toNat = 48 + d := by
  interval_cases d <;> rfl

theorem digitChar_isDigit {d : Nat} (h : d < 10) : (digitChar d).isDigit = true := by
  interval_cases d <;> rfl

theorem digitChar_ne_dot {d : Nat} (h : d < 10) : digitChar d ≠ '.' := by
  interval_cases d <;> decide

theorem digitChar_ne_dash {d : Nat} (h : d < 10) : digitChar d ≠ '-' := by
  interval_cases d <;> decide

theorem digitChar_ne_plus {d : Nat} (h : d < 10) : digitChar d ≠ '+' := by
  interval_cases d <;> decide

/-- Decimal rendering of a natural number (most significant digit first), the
shape of the numeric components in `v{a}.{b}.{c}` version strings. -/
def renderNat (n : Nat) : List Char :=
  if n = 0 then ['0'] else ((Nat.digits 10 n).reverse).map digitChar

/-- Python's `int(str)` restricted to an optional sign followed by decimal
digits (`int` also accepts surrounding whitespace and underscores, which no
version filename admitted by the discovery regex can contain). -/
def parseNatDigits (l : List Char) : Option Nat :=
  if l ≠ [] ∧ l.all (·.isDigit) then
    some (l.foldl (fun a c => a * 10 + (c.toNat - 48)) 0)
  else none

def pyInt (l : List Char) : Option Int :=
  if l.head? = some '-' then (parseNatDigits l.tail).map (fun n => -(n : Int))
  else if l.head? = some '+' then (parseNatDigits l.tail).map (fun n => (n : Int))
  else (parseNatDigits l).map (fun n => (n : Int))

theorem foldl_digits_eq_ofDigits (L : List Nat) :
    ∀ a : Nat, List.foldl (fun acc d => acc * 10 + d) a L
      = a * 10 ^ L.length + Nat.ofDigits 10 L.reverse := by
  induction L with
  | nil => intro a; simp [Nat.ofDigits]
  | cons d L ih =>
    intro a
    simp only [List.foldl_cons, ih, List.reverse_cons, Nat.ofDigits_append,
      List.length_reverse, List.length_cons]
    have : Nat.ofDigits 10 [d] = d := Nat.ofDigits_singleton
    rw [this]
    ring

theorem parseNatDigits_renderNat (n : Nat) : parseNatDigits (renderNat n) = some n := by
  by_cases hn : n = 0
  · subst hn; rfl
  · unfold renderNat
    rw [if_neg hn]
    have hne : (Nat.digits 10 n).reverse.map digitChar ≠ [] := by
      simp [Nat.digits_ne_nil_iff_ne_zero, hn]
    have hmem : ∀ d ∈ (Nat.digits 10 n).reverse, d < 10 := by
      intro d hd
      exact Nat.digits_lt_base (by norm_num) (List.mem_reverse.mp hd)
    have hall : ((Nat.digits 10 n).reverse.map digitChar).all (·.isDigit) = true := by
      rw [List.all_eq_true]
      intro c hc
      rw [List.mem_map] at hc
      obtain ⟨d, hd, rfl⟩ := hc
      exact digitChar_isDigit (hmem d hd)
    unfold parseNatDigits
    rw [if_pos ⟨hne, hall⟩]
    congr 1
    rw [List.foldl_map]
    have hcongr : List.foldl (fun (a : Nat) (d : Nat) => a * 10 + ((digitChar d).toNat - 48))
        0 (Nat.digits 10 n).reverse
        = List.foldl (fun (a : Nat) (d : Nat) => a * 10 + d) 0 (Nat.digits 10 n).reverse := by
      have : ∀ (L : List Nat), (∀ d ∈ L, d < 10) → ∀ a : Nat,
          List.foldl (fun (a : Nat) (d : Nat) => a * 10 + ((digitChar d).toNat - 48)) a L
          = List.foldl (fun (a : Nat) (d : Nat) => a * 10 + d) a L := by
        intro L
        induction L with
        | nil => intro _ a; rfl
        | cons d L ih =>
          intro hL a
          simp only [List.foldl_cons]
          rw [digitChar_toNat (hL d (List.mem_cons_self _ _))]
          have : 48 + d - 48 = d := by omega
          rw [this]
          exact ih (fun x hx => hL x (List.mem_cons_of_mem _ hx)) _
      exact this _ hmem 0
    rw [hcongr, foldl_digits_eq_ofDigits, List.reverse_reverse, Nat.ofDigits_digits]
    simp

theorem renderNat_ne_nil (n : Nat) : renderNat n ≠ [] := by
  unfold renderNat
  by_cases hn : n = 0
  · simp [hn]
  · simp [hn, Nat.digits_ne_nil_iff_ne_zero]

theorem renderNat_mem_digit {n : Nat} {c : Char} (h : c ∈ renderNat n) :
    ∃ d, d < 10 ∧ c = digitChar d := by
  unfold renderNat at h
  by_cases hn : n = 0
  · rw [if_pos hn] at h
    simp at h
    exact ⟨0, by norm_num, h⟩
  · rw [if_neg hn] at h
    rw [List.mem_map] at h
    obtain ⟨d, hd, rfl⟩ := h
    exact ⟨d, Nat.digits_lt_base (by norm_num) (List.mem_reverse.mp hd), rfl⟩

theorem renderNat_no_dot (n : Nat) : '.' ∉ renderNat n := by
  intro h
  obtain ⟨d, hd, hc⟩ := renderNat_mem_digit h
  exact digitChar_ne_dot hd hc.symm

theorem pyInt_renderNat (n : Nat) : pyInt (renderNat n) = some (n : Int) := by
  obtain ⟨c, rest, hcr⟩ : ∃ c rest, renderNat n = c :: rest := by
    cases h : renderNat n with
    | nil => exact absurd h (renderNat_ne_nil n)
    | cons c rest => exact ⟨c, rest, rfl⟩
  have hc : c ∈ renderNat n := by rw [hcr]; exact List.mem_cons_self _ _
  obtain ⟨d, hd, rfl⟩ := renderNat_mem_digit hc
  unfold pyInt
  rw [hcr]
  have h1 : (digitChar d :: rest).head? ≠ some '-' := by
    simp only [List.head?]
    intro h
    exact digitChar_ne_dash hd (by injection h)
  have h2 : (digitChar d :: rest).head? ≠ some '+' := by
    simp only [List.head?]
    intro h
    exact digitChar_ne_plus hd (by injection h)
  rw [if_neg h1, if_neg h2, ← hcr, parseNatDigits_renderNat]
  rfl

/-! ## `schemas/discovery.py` -/

/-- Python truthiness of a JSON value, as used by `if schema_id:` and
`if not v.deprecated`. -/
def jsonTruthy : Json → Bool
  | .null => false
  | .bool b => b
  | .num n => n ≠ 0
  | .str s => s ≠ ""
  | .arr .nil => false
  | .arr (.cons _ _) => true
  | .obj .nil => false
  | .obj (.cons _ _ _) => true

/-- The `$ref` rewrite inside `SchemaDiscovery._normalize_refs`
(discovery.py lines 113-121). -/
def rewriteRefStr (base_url value : String) : String :=
  if pyStartsWith value "/" = true then base_url ++ value
  else if pyStartsWith value "http" = false then base_url ++ "/schemas/" ++ value
  else value

mutual

/-- `SchemaDiscovery._normalize_refs` (discovery.py lines 108-128). -/
def _normalize_refs (base_url : String) : Json → Json
  | .obj fields => .obj (normRefsFields base_url fields)
  | .arr items => .arr (normRefsItems base_url items)
  | d => d

def normRefsFields (base_url : String) : JsonFields → JsonFields
  | .nil => .nil
  | .cons key value rest =>
    if key = "$ref" then
      match value with
      | .str s =>
        JsonFields.cons key (Json.str (rewriteRefStr base_url s)) (normRefsFields base_url rest)
      | v => JsonFields.cons key (_normalize_refs base_url v) (normRefsFields base_url rest)
    else JsonFields.cons key (_normalize_refs base_url value) (normRefsFields base_url rest)

def normRefsItems (base_url : String) : JsonList → JsonList
  | .nil => .nil
  | .cons item rest => .cons (_normalize_refs base_url item) (normRefsItems base_url rest)

end

mutual

/-- All string-valued `$ref` occurrences of a document, in tree order:
exactly the strings `_normalize_refs` rewrites. -/
def refsOf : Json → List String
  | .obj fields => refsOfFields fields
  | .arr items => refsOfItems items
  | _ => []

def refsOfFields : JsonFields → List String
  | .nil => []
  | .cons key value rest =>
    if key = "$ref" then
      match value with
      | .str s => s :: refsOfFields rest
      | v => refsOf v ++ refsOfFields rest
    else refsOf value ++ refsOfFields rest

def refsOfItems : JsonList → List String
  | .nil => []
  | .cons item rest => refsOf item ++ refsOfItems rest

end

/-- The in-place update `normalized['$id'] = v` on a dict that already has an
`'$id'` key: the value changes, the key keeps its position. -/
def setId : JsonFields → Json → JsonFields
  | .nil, _ => .nil
  | .cons k v t, newv =>
    if k = "$id" then .cons k newv (setId t newv) else .cons k v (setId t newv)

/-- `SchemaDiscovery._normalize_schema_ids` (discovery.py lines 87-106).
`none` models the uncaught `AttributeError` Python raises when a present
`$id` is not a string (`current_id.startswith` on a non-string). -/
def _normalize_schema_ids (base_url schema_name version : String)
    (schema_data : Json) : Option Json :=
  match schema_data with
  | .obj fields =>
    match fields.lookup "$id" with
    | some (.str current_id) =>
      let fields' :=
        if pyStartsWith current_id "/" = true then
          setId fields (.str (base_url ++ current_id))
        else if pyStartsWith current_id "http" = false then
          setId fields (.str (base_url ++ "/schemas/" ++ schema_name ++ "/" ++ version))
        else fields
      some (_normalize_refs base_url (.obj fields'))
    | some _ => none
    | none => some (_normalize_refs base_url (.obj fields))
  | d => some d

/-- The component pipeline of `SchemaDiscovery._parse_version`: strip a
leading `v`, split on `'.'`, pad missing trailing components with `'0'`,
keep the first three. -/
def versionParts (version_str : String) : List (List Char) :=
  let clean_version := match version_str.data with
    | 'v' :: rest => rest
    | l => l
  let parts := splitDot clean_version
  (parts ++ List.replicate (3 - parts.length) ['0']).take 3

/-- `SchemaDiscovery._parse_version` (discovery.py lines 130-141):
`tuple(int(part) for part in parts[:3])`, with any `ValueError` collapsing
the whole key to `(0, 0, 0)`. -/
def _parse_version (version_str : String) : Int × Int × Int :=
  match versionParts version_str with
  | [p₁, p₂, p₃] =>
    match pyInt p₁, pyInt p₂, pyInt p₃ with
    | some a, some b, some c => (a, b, c)
    | _, _, _ => (0, 0, 0)
  | _ => (0, 0, 0)

/-- Python's lexicographic `≤` on `(int, int, int)` sort keys. -/
def versionKeyLe (a b : Int × Int × Int) : Prop :=
  a.1 < b.1 ∨ (a.1 = b.1 ∧ (a.2.1 < b.2.1 ∨ (a.2.1 = b.2.1 ∧ a.2.2 ≤ b.2.2)))

instance : DecidableRel versionKeyLe := fun a b => by
  unfold versionKeyLe; infer_instance

/-- The `SchemaInfo` dataclass.  `title` and `description` hold whatever JSON
value `schema_data.get` returns (Python does not enforce the `str`
annotation); `deprecated` stores the truthiness that `get_schema` tests with
`if not v.deprecated`. -/
structure SchemaInfo where
  name : String
  version : String
  file_path : String
  data : Json
  title : Json
  description : Json
  deprecated : Bool
deriving DecidableEq

/-- The sort key `lambda x: self._parse_version(x.version)` as a relation. -/
def schemaInfoLe (a b : SchemaInfo) : Prop :=
  versionKeyLe (_parse_version a.version) (_parse_version b.version)

instance : DecidableRel schemaInfoLe := fun a b => by
  unfold schemaInfoLe; infer_instance

instance : IsTotal SchemaInfo schemaInfoLe :=
  ⟨by intro a b; unfold schemaInfoLe versionKeyLe; omega⟩

instance : IsTrans SchemaInfo schemaInfoLe :=
  ⟨by intro a b c; unfold schemaInfoLe versionKeyLe; omega⟩

/-- `versions.sort(key=lambda x: self._parse_version(x.version))`: Python's
sort is stable, and any two stable sorts with the same key agree, so the
stable `insertionSort` models it faithfully. -/
def sortVersions (l : List SchemaInfo) : List SchemaInfo :=
  List.insertionSort schemaInfoLe l

/-- The `version == "latest"` branch of `SchemaDiscovery.get_schema`
(discovery.py lines 152-157), applied to a family's (sorted) version list. -/
def get_schema_latest (versions : List SchemaInfo) : Option SchemaInfo :=
  if versions = [] then none
  else
    let non_deprecated := versions.filter (fun v => !v.deprecated)
    if non_deprecated = [] then versions.getLast? else non_deprecated.getLast?

/-- `get_schema(name, "latest")` on a family whose discovered records are
`discovered`: `_discover_versions` sorts them, then `get_schema` selects. -/
def get_schema_latest_of (discovered : List SchemaInfo) : Option SchemaInfo :=
  get_schema_latest (sortVersions discovered)

/-- Assignment `schemas_dict[schema_id] = data` on a Python dict: replaces in
place when the key exists, appends otherwise. -/
def insertLWW : List (String × Json) → String → Json → List (String × Json)
  | [], k, v => [(k, v)]
  | (k', v') :: t, k, v =>
    if k' = k then (k, v) :: t else (k', v') :: insertLWW t k v

def getAllSchemasGo : List SchemaInfo → List (String × Json) → Option (List (String × Json))
  | [], acc => some acc
  | info :: rest, acc =>
    match info.data with
    | .obj fields =>
      match fields.lookup "$id" with
      | none => getAllSchemasGo rest acc
      | some v =>
        if jsonTruthy v = true then
          match v with
          | .str s => getAllSchemasGo rest (insertLWW acc s info.data)
          | _ => none
        else getAllSchemasGo rest acc
    | _ => none

/-- `SchemaDiscovery.get_all_schemas_dict` (discovery.py lines 165-176) over
the flattened list of discovered records.  `none` models the cases where the
Python loop would raise: `version_info.data.get` on a non-dict `data`
(`AttributeError`), or a truthy non-string `$id` used as a store key (the
discovery pipeline never produces either, see `_discover_versions` /
`_normalize_schema_ids`). -/
def get_all_schemas_dict (records : List SchemaInfo) : Option (List (String × Json)) :=
  getAllSchemasGo records []

/-- A file of a family directory as `_discover_versions` sees it: its stem
(`version_file.stem`) and its parsed body (`none` when `json.load` raises
`JSONDecodeError`/`ValueError`/`UnicodeDecodeError`, all caught). -/
structure RawFile where
  stem : String
  content : Option Json
deriving DecidableEq

/-- The regex `^v\d+\.\d+\.\d+$` from discovery.py line 58. -/
def versionStemOk (s : String) : Bool :=
  match s.data with
  | 'v' :: rest =>
    match splitDot rest with
    | [a, b, c] =>
      (!a.isEmpty && a.all (·.isDigit)) && (!b.isEmpty && b.all (·.isDigit))
        && (!c.isEmpty && c.all (·.isDigit))
    | _ => false
  | _ => false

/-- Construction of one `SchemaInfo` record (discovery.py lines 66-76).
`none` models an exception that the surrounding
`except (json.JSONDecodeError, ValueError)` does NOT catch: an
`AttributeError` either from `_normalize_schema_ids` (non-string `$id`) or
from `schema_data.get` when the file's top-level JSON value is not a dict. -/
def mkSchemaInfo (base_url schema_name version_str : String)
    (schema_data : Json) : Option SchemaInfo :=
  match _normalize_schema_ids base_url schema_name version_str schema_data with
  | none => none
  | some nd =>
    match nd with
    | .obj fields =>
      some { name := schema_name
             version := version_str
             file_path := schema_name ++ "/" ++ version_str ++ ".json"
             data := nd
             title := fields.getD "title" (.str schema_name)
             description := fields.getD "description" (.str "")
             deprecated := jsonTruthy (fields.getD "deprecated" (.bool false)) }
    | _ => none

def discoverGo (base_url schema_name : String) :
    List RawFile → List SchemaInfo → Option (List SchemaInfo)
  | [], acc => some acc
  | f :: rest, acc =>
    if versionStemOk f.stem = false then discoverGo base_url schema_name rest acc
    else
      match f.content with
      | none => discoverGo base_url schema_name rest acc
      | some schema_data =>
        match mkSchemaInfo base_url schema_name f.stem schema_data with
        | none => none
        | some info => discoverGo base_url schema_name rest (acc ++ [info])

/-- `SchemaDiscovery._discover_versions` (discovery.py lines 50-85) over the
files of one family directory, in `glob` order.  The version-pattern check
runs before `json.load`, so a bad stem skips the file whatever its body;
a body that fails to parse is skipped by the `except` clause; an uncaught
exception from record construction (`none` from `mkSchemaInfo`) aborts the
whole family scan.  The surviving records are sorted by version key. -/
def _discover_versions (base_url schema_name : String)
    (files : List RawFile) : Option (List SchemaInfo) :=
  (discoverGo base_url schema_name files []).map sortVersions

/-! ## `main.py`: `resolve_references` (lines 132-158)

The Python function threads one mutable `set` (`resolved_paths`) through the
whole call; references are added (line 144) and never removed.  The
embedding passes that set explicitly and returns the updated set.  The
`jsonschema` `RefResolver` is not part of this repository: per the
specification it is modelled as the `$id → document` lookup table built by
`get_all_schemas_dict`, and a reference absent from it as the raised
`RefResolutionError` whose message names the unresolvable reference. -/

def circularMarker (ref : String) : Json :=
  .obj (.cons "$comment" (.str ("Circular reference avoided: " ++ ref)) .nil)

/-- Models the message of the error raised by `resolver.resolving(ref)` for a
reference string absent from the store (an `unknown url type` error naming
the reference). -/
def resolverErrorText (ref : String) : String :=
  "unknown url type: " ++ ref

def failureMarker (ref : String) : Json :=
  .obj (.cons "$comment" (.str ("Reference resolution failed: " ++ resolverErrorText ref)) .nil)

/-- Marker produced when the `$ref` value is not a string (then
`resolver.resolving` raises and line 150 stringifies that error).  Python
would also have added the (hashable) value to `resolved_paths`; no claim
exercises a non-string `$ref`, so the embedding keeps the set unchanged. -/
def badRefMarker : Json :=
  .obj (.cons "$comment" (.str "Reference resolution failed: non-string reference") .nil)

mutual

/-- Fuel-indexed embedding of `resolve_references(schema, resolver,
resolved_paths)`.  `none` means "out of fuel"; `resolveF_isSome` below shows
the explicit bound `resolveMeasure` always suffices, so the fuel-free
wrappers `resolveFrom` / `resolve_references` are total, mirroring the
Python function's termination. -/
def resolveF (table : List (String × Json)) :
    Nat → Json → List String → Option (Json × List String)
  | 0, _, _ => none
  | n+1, .obj fields, resolved_paths =>
    match fields.lookup "$ref" with
    | some (.str ref) =>
      if ref ∈ resolved_paths then some (circularMarker ref, resolved_paths)
      else
        match table.lookup ref with
        | some target => resolveF table n target (ref :: resolved_paths)
        | none => some (failureMarker ref, ref :: resolved_paths)
    | some _ => some (badRefMarker, resolved_paths)
    | none =>
      match resolveFieldsF table n fields resolved_paths with
      | none => none
      | some (fields', s') => some (.obj fields', s')
  | n+1, .arr items, resolved_paths =>
    match resolveItemsF table n items resolved_paths with
    | none => none
    | some (items', s') => some (.arr items', s')
  | _+1, d, resolved_paths => some (d, resolved_paths)

/-- The dict comprehension of line 153: values are resolved left to right,
each seeing the set as mutated by its predecessors. -/
def resolveFieldsF (table : List (String × Json)) :
    Nat → JsonFields → List String → Option (JsonFields × List String)
  | 0, _, _ => none
  | _+1, .nil, s => some (.nil, s)
  | n+1, .cons key value rest, s =>
    match resolveF table n value s with
    | none => none
    | some (v', s₁) =>
      match resolveFieldsF table n rest s₁ with
      | none => none
      | some (rest', s₂) => some (.cons key v' rest', s₂)

/-- The list comprehension of line 156. -/
def resolveItemsF (table : List (String × Json)) :
    Nat → JsonList → List String → Option (JsonList × List String)
  | 0, _, _ => none
  | _+1, .nil, s => some (.nil, s)
  | n+1, .cons item rest, s =>
    match resolveF table n item s with
    | none => none
    | some (v', s₁) =>
      match resolveItemsF table n rest s₁ with
      | none => none
      | some (rest', s₂) => some (.cons v' rest', s₂)

end

/-- One more than the total size of the stored documents: a strict bound on
the size of any document a `$ref` expansion can switch to. -/
def tableSizeBound (table : List (String × Json)) : Nat :=
  1 + (table.map (fun kv => jsonSize kv.2)).sum

/-- How many table entries have a key not yet in the in-progress set: each
`$ref` expansion moves one such key into the set, which is what makes the
Python recursion terminate. -/
def refsLeft (table : List (String × Json)) (s : List String) : Nat :=
  (table.filter (fun kv => decide (kv.1 ∉ s))).length

/-- Explicit fuel bound sufficient for `resolveF` (see `resolveF_isSome`). -/
def resolveMeasure (table : List (String × Json)) (s : List String) (d : Json) : Nat :=
  refsLeft table s * tableSizeBound table + jsonSize d

theorem jsonListSize_pos (l : JsonList) : 0 < jsonListSize l := by
  cases l <;> simp [jsonListSize]

theorem jsonFieldsSize_pos (l : JsonFields) : 0 < jsonFieldsSize l := by
  cases l <;> simp [jsonFieldsSize]

theorem lookup_mem {l : List (String × Json)} {k : String} {v : Json}
    (h : List.lookup k l = some v) : (k, v) ∈ l := by
  induction l with
  | nil => simp [List.lookup] at h
  | cons p t ih =>
    obtain ⟨k', v'⟩ := p
    simp only [List.lookup] at h
    by_cases hk : k == k'
    · simp only [hk] at h
      injection h with h
      subst h
      simp only [beq_iff_eq] at hk
      subst hk
      exact List.mem_cons_self _ _
    · simp only [Bool.not_eq_true] at hk
      rw [hk] at h
      exact List.mem_cons_of_mem _ (ih h)

theorem refsLeft_mono (table : List (String × Json)) {s s' : List String}
    (h : ∀ x ∈ s, x ∈ s') : refsLeft table s' ≤ refsLeft table s := by
  unfold refsLeft
  induction table with
  | nil => simp
  | cons kv t ih =>
    simp only [List.filter_cons]
    by_cases h1 : kv.1 ∈ s'
    · have h2 : decide (kv.1 ∉ s') = false := by simp [h1]
      by_cases h3 : kv.1 ∈ s
      · have h4 : decide (kv.1 ∉ s) = false := by simp [h3]
        simp only [h2, h4, Bool.false_eq_true, if_false]
        exact ih
      · have h4 : decide (kv.1 ∉ s) = true := by simp [h3]
        simp only [h2, h4, Bool.false_eq_true, if_false, if_true, List.length_cons]
        omega
    · have h3 : kv.1 ∉ s := fun hx => h1 (h _ hx)
      have h2 : decide (kv.1 ∉ s') = true := by simp [h1]
      have h4 : decide (kv.1 ∉ s) = true := by simp [h3]
      simp only [h2, h4, if_true, List.length_cons]
      omega

theorem refsLeft_cons_lt (table : List (String × Json)) {r : String} {t : Json}
    {s : List String} (hmem : (r, t) ∈ table) (hr : r ∉ s) :
    refsLeft table (r :: s) < refsLeft table s := by
  induction table with
  | nil => cases hmem
  | cons kv tab ih =>
    unfold refsLeft
    simp only [List.filter_cons]
    rcases List.mem_cons.mp hmem with heq | hmem'
    · have hk : kv.1 = r := by rw [← heq]
      have h2 : decide (kv.1 ∉ r :: s) = false := by simp [hk]
      have h4 : decide (kv.1 ∉ s) = true := by simp [hk, hr]
      simp only [h2, h4, Bool.false_eq_true, if_false, if_true, List.length_cons]
      have hmono : refsLeft tab (r :: s) ≤ refsLeft tab s :=
        refsLeft_mono tab (fun x hx => List.mem_cons_of_mem _ hx)
      unfold refsLeft at hmono
      omega
    · have hlt := ih hmem'
      unfold refsLeft at hlt
      by_cases h1 : kv.1 ∈ r :: s
      · have h2 : decide (kv.1 ∉ r :: s) = false := by simp only [decide_eq_false_iff_not]; tauto
        by_cases h3 : kv.1 ∈ s
        · have h4 : decide (kv.1 ∉ s) = false := by simp [h3]
          simp only [h2, h4, Bool.false_eq_true, if_false]
          exact hlt
        · have h4 : decide (kv.1 ∉ s) = true := by simp [h3]
          simp only [h2, h4, Bool.false_eq_true, if_false, if_true, List.length_cons]
          omega
      · have h3 : kv.1 ∉ s := fun hx => h1 (List.mem_cons_of_mem _ hx)
        have h2 : decide (kv.1 ∉ r :: s) = true := by simp only [decide_eq_true_eq]; tauto
        have h4 : decide (kv.1 ∉ s) = true := by simp [h3]
        simp only [h2, h4, if_true, List.length_cons]
        omega

theorem jsonSize_lookup_lt (table : List (String × Json)) {r : String} {t : Json}
    (h : List.lookup r table = some t) : jsonSize t < tableSizeBound table := by
  have hmem := lookup_mem h
  unfold tableSizeBound
  have hin : jsonSize t ∈ table.map (fun kv => jsonSize kv.2) := by
    exact List.mem_map_of_mem _ hmem
  have hle : jsonSize t ≤ (table.map (fun kv => jsonSize kv.2)).sum :=
    List.single_le_sum (fun x _ => Nat.zero_le x) _ hin
  omega

theorem measure_target_lt {table : List (String × Json)} {r : String} {tgt : Json}
    {s : List String} (d : Json)
    (ht : List.lookup r table = some tgt) (hr : r ∉ s) :
    resolveMeasure table (r :: s) tgt + 2 ≤ resolveMeasure table s d := by
  have h1 : refsLeft table (r :: s) + 1 ≤ refsLeft table s :=
    refsLeft_cons_lt table (lookup_mem ht) hr
  have h2 : jsonSize tgt + 1 ≤ tableSizeBound table := jsonSize_lookup_lt table ht
  have h3 : (refsLeft table (r :: s) + 1) * tableSizeBound table
      ≤ refsLeft table s * tableSizeBound table := Nat.mul_le_mul_right _ h1
  rw [add_mul, one_mul] at h3
  have h4 := jsonSize_pos d
  unfold resolveMeasure
  generalize refsLeft table (r :: s) * tableSizeBound table = A at h3 ⊢
  generalize refsLeft table s * tableSizeBound table = B at h3 ⊢
  omega

/-- The in-progress set only ever grows (Python only calls `add` on it). -/
theorem resolveF_subset (table : List (String × Json)) :
    ∀ n, (∀ d s out, resolveF table n d s = some out → ∀ x ∈ s, x ∈ out.2)
      ∧ (∀ l s out, resolveFieldsF table n l s = some out → ∀ x ∈ s, x ∈ out.2)
      ∧ (∀ l s out, resolveItemsF table n l s = some out → ∀ x ∈ s, x ∈ out.2) := by
  intro n
  induction n with
  | zero =>
    refine ⟨?_, ?_, ?_⟩ <;> intro a s out h <;>
      simp [resolveF, resolveFieldsF, resolveItemsF] at h
  | succ n ih =>
    obtain ⟨ihd, ihf, ihi⟩ := ih
    refine ⟨?_, ?_, ?_⟩
    · intro d s out h x hx
      cases d with
      | obj fields =>
        simp only [resolveF] at h
        split at h
        · split at h
          · injection h with h; subst h; exact hx
          · split at h
            · exact ihd _ _ _ h x (List.mem_cons_of_mem _ hx)
            · injection h with h; subst h; exact List.mem_cons_of_mem _ hx
        · injection h with h; subst h; exact hx
        · split at h
          · simp at h
          · rename_i heq
            injection h with h; subst h
            exact ihf _ _ _ heq x hx
      | arr items =>
        simp only [resolveF] at h
        split at h
        · simp at h
        · rename_i heq
          injection h with h; subst h
          exact ihi _ _ _ heq x hx
      | null => simp only [resolveF] at h; injection h with h; subst h; exact hx
      | bool b => simp only [resolveF] at h; injection h with h; subst h; exact hx
      | num m => simp only [resolveF] at h; injection h with h; subst h; exact hx
      | str s0 => simp only [resolveF] at h; injection h with h; subst h; exact hx
    · intro l s out h x hx
      cases l with
      | nil => simp only [resolveFieldsF] at h; injection h with h; subst h; exact hx
      | cons key value rest =>
        simp only [resolveFieldsF] at h
        split at h
        · simp at h
        · rename_i v' s₁ heq1
          split at h
          · simp at h
          · rename_i rest' s₂ heq2
            injection h with h; subst h
            exact ihf _ _ _ heq2 x (ihd _ _ _ heq1 x hx)
    · intro l s out h x hx
      cases l with
      | nil => simp only [resolveItemsF] at h; injection h with h; subst h; exact hx
      | cons item rest =>
        simp only [resolveItemsF] at h
        split at h
        · simp at h
        · rename_i v' s₁ heq1
          split at h
          · simp at h
          · rename_i rest' s₂ heq2
            injection h with h; subst h
            exact ihi _ _ _ heq2 x (ihd _ _ _ heq1 x hx)

/-- A successful run stays successful (with the same result) at any larger
fuel, so results are fuel-independent once the fuel suffices. -/
theorem resolveF_fuel_mono (table : List (String × Json)) :
    ∀ n m, n ≤ m →
      (∀ d s out, resolveF table n d s = some out → resolveF table m d s = some out)
      ∧ (∀ l s out, resolveFieldsF table n l s = some out → resolveFieldsF table m l s = some out)
      ∧ (∀ l s out, resolveItemsF table n l s = some out → resolveItemsF table m l s = some out) := by
  intro n
  induction n with
  | zero =>
    intro m hm
    refine ⟨?_, ?_, ?_⟩ <;> intro a s out h <;>
      simp [resolveF, resolveFieldsF, resolveItemsF] at h
  | succ n ih =>
    intro m hm
    obtain ⟨m', rfl⟩ : ∃ m', m = m' + 1 := ⟨m - 1, by omega⟩
    obtain ⟨ihd, ihf, ihi⟩ := ih m' (by omega)
    refine ⟨?_, ?_, ?_⟩
    · intro d s out h
      cases d with
      | obj fields =>
        simp only [resolveF] at h ⊢
        split at h
        · rename_i ref heq
          split at h
          · rename_i hmem
            rw [if_pos hmem]
            exact h
          · rename_i hmem
            rw [if_neg hmem]
            split at h
            · exact ihd _ _ _ h
            · exact h
        · exact h
        · rename_i heq
          split at h
          · simp at h
          · rename_i fields' s' heq2
            simp only [ihf _ _ _ heq2]
            exact h
      | arr items =>
        simp only [resolveF] at h ⊢
        split at h
        · simp at h
        · rename_i items' s' heq
          simp only [ihi _ _ _ heq]
          exact h
      | null => simp only [resolveF] at h ⊢; exact h
      | bool b => simp only [resolveF] at h ⊢; exact h
      | num k => simp only [resolveF] at h ⊢; exact h
      | str s0 => simp only [resolveF] at h ⊢; exact h
    · intro l s out h
      cases l with
      | nil => simp only [resolveFieldsF] at h ⊢; exact h
      | cons key value rest =>
        simp only [resolveFieldsF] at h ⊢
        split at h
        · simp at h
        · rename_i v' s₁ heq1
          simp only [ihd _ _ _ heq1]
          split at h
          · simp at h
          · rename_i rest' s₂ heq2
            simp only [ihf _ _ _ heq2]
            exact h
    · intro l s out h
      cases l with
      | nil => simp only [resolveItemsF] at h ⊢; exact h
      | cons item rest =>
        simp only [resolveItemsF] at h ⊢
        split at h
        · simp at h
        · rename_i v' s₁ heq1
          simp only [ihd _ _ _ heq1]
          split at h
          · simp at h
          · rename_i rest' s₂ heq2
            simp only [ihi _ _ _ heq2]
            exact h

/-- Fuel adequacy: the explicit bound `resolveMeasure` always suffices, i.e.
the embedded `resolve_references` terminates on every finite document and
lookup table (cyclic reference chains are cut by the in-progress set). -/
theorem resolveF_isSome (table : List (String × Json)) :
    ∀ n, (∀ d s, resolveMeasure table s d ≤ n → (resolveF table n d s).isSome = true)
      ∧ (∀ l s, refsLeft table s * tableSizeBound table + jsonFieldsSize l ≤ n →
          (resolveFieldsF table n l s).isSome = true)
      ∧ (∀ l s, refsLeft table s * tableSizeBound table + jsonListSize l ≤ n →
          (resolveItemsF table n l s).isSome = true) := by
  intro n
  induction n with
  | zero =>
    refine ⟨?_, ?_, ?_⟩
    · intro d s hle
      have := jsonSize_pos d
      unfold resolveMeasure at hle
      omega
    · intro l s hle
      have := jsonFieldsSize_pos l
      omega
    · intro l s hle
      have := jsonListSize_pos l
      omega
  | succ n ih =>
    obtain ⟨ihd, ihf, ihi⟩ := ih
    have hD : ∀ d s, resolveMeasure table s d ≤ n + 1 →
        (resolveF table (n+1) d s).isSome = true := by
      intro d s hle
      cases d with
      | obj fields =>
        simp only [resolveF]
        split
        · rename_i ref heq
          by_cases hmem : ref ∈ s
          · rw [if_pos hmem]; rfl
          · rw [if_neg hmem]
            split
            · rename_i target htl
              have hm := measure_target_lt (Json.obj fields) htl hmem
              exact ihd target (ref :: s) (by omega)
            · rfl
        · rfl
        · rename_i heq
          have hfs : (resolveFieldsF table n fields s).isSome = true := by
            apply ihf
            have hsz : jsonSize (Json.obj fields) = 1 + jsonFieldsSize fields := by
              simp [jsonSize]
            unfold resolveMeasure at hle
            omega
          obtain ⟨p, hp⟩ := Option.isSome_iff_exists.mp hfs
          obtain ⟨fields', s'⟩ := p
          simp only [hp]
          rfl
      | arr items =>
        simp only [resolveF]
        have his : (resolveItemsF table n items s).isSome = true := by
          apply ihi
          have hsz : jsonSize (Json.arr items) = 1 + jsonListSize items := by
            simp [jsonSize]
          unfold resolveMeasure at hle
          omega
        obtain ⟨p, hp⟩ := Option.isSome_iff_exists.mp his
        obtain ⟨items', s'⟩ := p
        simp only [hp]
        rfl
      | null => simp [resolveF]
      | bool b => simp [resolveF]
      | num k => simp [resolveF]
      | str s0 => simp [resolveF]
    refine ⟨hD, ?_, ?_⟩
    · intro l s hle
      cases l with
      | nil => simp [resolveFieldsF]
      | cons key value rest =>
        simp only [resolveFieldsF]
        have hszc : jsonFieldsSize (JsonFields.cons key value rest)
            = 1 + jsonSize value + jsonFieldsSize rest := by simp [jsonFieldsSize]
        have hv : (resolveF table n value s).isSome = true := by
          apply ihd
          unfold resolveMeasure
          have := jsonFieldsSize_pos rest
          omega
        obtain ⟨p, hp⟩ := Option.isSome_iff_exists.mp hv
        obtain ⟨v', s₁⟩ := p
        simp only [hp]
        have hsub : ∀ x ∈ s, x ∈ s₁ := fun x hx =>
          (resolveF_subset table n).1 _ _ _ hp x hx
        have hrest : (resolveFieldsF table n rest s₁).isSome = true := by
          apply ihf
          have hmono : refsLeft table s₁ ≤ refsLeft table s := refsLeft_mono table hsub
          have hmul : refsLeft table s₁ * tableSizeBound table
              ≤ refsLeft table s * tableSizeBound table := Nat.mul_le_mul_right _ hmono
          have hszv := jsonSize_pos value
          generalize refsLeft table s₁ * tableSizeBound table = A at hmul ⊢
          generalize refsLeft table s * tableSizeBound table = B at hmul hle ⊢
          omega
        obtain ⟨q, hq⟩ := Option.isSome_iff_exists.mp hrest
        obtain ⟨rest', s₂⟩ := q
        simp only [hq]
        rfl
    · intro l s hle
      cases l with
      | nil => simp [resolveItemsF]
      | cons item rest =>
        simp only [resolveItemsF]
        have hszc : jsonListSize (JsonList.cons item rest)
            = 1 + jsonSize item + jsonListSize rest := by simp [jsonListSize]
        have hv : (resolveF table n item s).isSome = true := by
          apply ihd
          unfold resolveMeasure
          have := jsonListSize_pos rest
          omega
        obtain ⟨p, hp⟩ := Option.isSome_iff_exists.mp hv
        obtain ⟨v', s₁⟩ := p
        simp only [hp]
        have hsub : ∀ x ∈ s, x ∈ s₁ := fun x hx =>
          (resolveF_subset table n).1 _ _ _ hp x hx
        have hrest : (resolveItemsF table n rest s₁).isSome = true := by
          apply ihi
          have hmono : refsLeft table s₁ ≤ refsLeft table s := refsLeft_mono table hsub
          have hmul : refsLeft table s₁ * tableSizeBound table
              ≤ refsLeft table s * tableSizeBound table := Nat.mul_le_mul_right _ hmono
          have hszv := jsonSize_pos item
          generalize refsLeft table s₁ * tableSizeBound table = A at hmul ⊢
          generalize refsLeft table s * tableSizeBound table = B at hmul hle ⊢
          omega
        obtain ⟨q, hq⟩ := Option.isSome_iff_exists.mp hrest
        obtain ⟨rest', s₂⟩ := q
        simp only [hq]
        rfl


/-! ### Fuel-free wrappers

`resolveRun` runs `resolveF` at the sufficient fuel `resolveMeasure`; by
`resolveF_isSome` it always returns `some`.  `resolveFrom s d` is the
resolved document and `setAfter s d` the in-progress set after the call —
together they are the embedding of `resolve_references(d, resolver, s)`. -/

def resolveRun (table : List (String × Json)) (s : List String) (d : Json) :
    Option (Json × List String) :=
  resolveF table (resolveMeasure table s d) d s

def resolveFrom (table : List (String × Json)) (s : List String) (d : Json) : Json :=
  ((resolveRun table s d).getD (d, s)).1

def setAfter (table : List (String × Json)) (s : List String) (d : Json) : List String :=
  ((resolveRun table s d).getD (d, s)).2

/-- `resolve_references(schema, resolver)` from `main.py` line 164: the
top-level call starts with a fresh empty `resolved_paths` set. -/
def resolve_references (table : List (String × Json)) (schema : Json) : Json :=
  resolveFrom table [] schema

def fieldsMeasure (table : List (String × Json)) (s : List String) (l : JsonFields) : Nat :=
  refsLeft table s * tableSizeBound table + jsonFieldsSize l

def fieldsRun (table : List (String × Json)) (s : List String) (l : JsonFields) :
    Option (JsonFields × List String) :=
  resolveFieldsF table (fieldsMeasure table s l) l s

def resolveFieldsFrom (table : List (String × Json)) (s : List String) (l : JsonFields) :
    JsonFields :=
  ((fieldsRun table s l).getD (l, s)).1

def fieldsSetAfter (table : List (String × Json)) (s : List String) (l : JsonFields) :
    List String :=
  ((fieldsRun table s l).getD (l, s)).2

theorem resolveF_det {table : List (String × Json)} {n m : Nat} {d : Json}
    {s : List String} {out out' : Json × List String}
    (h1 : resolveF table n d s = some out) (h2 : resolveF table m d s = some out') :
    out = out' := by
  rcases Nat.le_total n m with hle | hle
  · have h := (resolveF_fuel_mono table n m hle).1 _ _ _ h1
    rw [h] at h2
    injection h2
  · have h := (resolveF_fuel_mono table m n hle).1 _ _ _ h2
    rw [h] at h1
    injection h1 with h1
    exact h1.symm

theorem resolveFieldsF_det {table : List (String × Json)} {n m : Nat} {l : JsonFields}
    {s : List String} {out out' : JsonFields × List String}
    (h1 : resolveFieldsF table n l s = some out)
    (h2 : resolveFieldsF table m l s = some out') : out = out' := by
  rcases Nat.le_total n m with hle | hle
  · have h := (resolveF_fuel_mono table n m hle).2.1 _ _ _ h1
    rw [h] at h2
    injection h2
  · have h := (resolveF_fuel_mono table m n hle).2.1 _ _ _ h2
    rw [h] at h1
    injection h1 with h1
    exact h1.symm

theorem resolveRun_some (table : List (String × Json)) (s : List String) (d : Json) :
    resolveRun table s d = some (resolveFrom table s d, setAfter table s d) := by
  have hs := (resolveF_isSome table (resolveMeasure table s d)).1 d s (Nat.le_refl _)
  obtain ⟨p, hp⟩ := Option.isSome_iff_exists.mp hs
  obtain ⟨a, b⟩ := p
  unfold resolveFrom setAfter resolveRun at *
  rw [hp]
  rfl

theorem fieldsRun_some (table : List (String × Json)) (s : List String) (l : JsonFields) :
    fieldsRun table s l = some (resolveFieldsFrom table s l, fieldsSetAfter table s l) := by
  have hs := (resolveF_isSome table (fieldsMeasure table s l)).2.1 l s (Nat.le_refl _)
  obtain ⟨p, hp⟩ := Option.isSome_iff_exists.mp hs
  obtain ⟨a, b⟩ := p
  unfold resolveFieldsFrom fieldsSetAfter fieldsRun at *
  rw [hp]
  rfl

theorem resolveRun_eq {table : List (String × Json)} {n : Nat} {d : Json}
    {s : List String} {out : Json × List String}
    (h : resolveF table n d s = some out) :
    resolveFrom table s d = out.1 ∧ setAfter table s d = out.2 := by
  have h2 := resolveRun_some table s d
  unfold resolveRun at h2
  have hd := resolveF_det h2 h
  exact ⟨congrArg Prod.fst hd, congrArg Prod.snd hd⟩

theorem fieldsRun_eq {table : List (String × Json)} {n : Nat} {l : JsonFields}
    {s : List String} {out : JsonFields × List String}
    (h : resolveFieldsF table n l s = some out) :
    resolveFieldsFrom table s l = out.1 ∧ fieldsSetAfter table s l = out.2 := by
  have h2 := fieldsRun_some table s l
  unfold fieldsRun at h2
  have hd := resolveFieldsF_det h2 h
  exact ⟨congrArg Prod.fst hd, congrArg Prod.snd hd⟩

theorem setAfter_subset (table : List (String × Json)) (s : List String) (d : Json) :
    ∀ x ∈ s, x ∈ setAfter table s d := by
  have h := resolveRun_some table s d
  unfold resolveRun at h
  intro x hx
  exact (resolveF_subset table _).1 _ _ _ h x hx

/-! ### Behavioural equations of the fuel-free resolver, one per branch of
the Python function. -/

theorem resolveFrom_obj_circ (table : List (String × Json)) (s : List String)
    {fields : JsonFields} {ref : String}
    (heq : fields.lookup "$ref" = some (.str ref)) (hmem : ref ∈ s) :
    resolveFrom table s (.obj fields) = circularMarker ref
      ∧ setAfter table s (.obj fields) = s := by
  have hrun : resolveF table 1 (Json.obj fields) s = some (circularMarker ref, s) := by
    simp only [resolveF, heq]
    rw [if_pos hmem]
  exact resolveRun_eq hrun

theorem resolveFrom_obj_expand (table : List (String × Json)) (s : List String)
    {fields : JsonFields} {ref : String} {target : Json}
    (heq : fields.lookup "$ref" = some (.str ref)) (hmem : ref ∉ s)
    (htl : table.lookup ref = some target) :
    resolveFrom table s (.obj fields) = resolveFrom table (ref :: s) target
      ∧ setAfter table s (.obj fields) = setAfter table (ref :: s) target := by
  have htr := resolveRun_some table (ref :: s) target
  unfold resolveRun at htr
  have hrun : resolveF table (resolveMeasure table (ref :: s) target + 1)
      (Json.obj fields) s
      = some (resolveFrom table (ref :: s) target, setAfter table (ref :: s) target) := by
    simp only [resolveF, heq]
    rw [if_neg hmem]
    simp only [htl]
    exact htr
  exact resolveRun_eq hrun

theorem resolveFrom_obj_fail (table : List (String × Json)) (s : List String)
    {fields : JsonFields} {ref : String}
    (heq : fields.lookup "$ref" = some (.str ref)) (hmem : ref ∉ s)
    (htl : table.lookup ref = none) :
    resolveFrom table s (.obj fields) = failureMarker ref
      ∧ setAfter table s (.obj fields) = ref :: s := by
  have hrun : resolveF table 1 (Json.obj fields) s = some (failureMarker ref, ref :: s) := by
    simp only [resolveF, heq]
    rw [if_neg hmem]
    simp only [htl]
  exact resolveRun_eq hrun

theorem resolveFrom_obj_plain (table : List (String × Json)) (s : List String)
    {fields : JsonFields} (heq : fields.lookup "$ref" = none) :
    resolveFrom table s (.obj fields) = .obj (resolveFieldsFrom table s fields)
      ∧ setAfter table s (.obj fields) = fieldsSetAfter table s fields := by
  have hfr := fieldsRun_some table s fields
  unfold fieldsRun at hfr
  have hrun : resolveF table (fieldsMeasure table s fields + 1) (Json.obj fields) s
      = some (.obj (resolveFieldsFrom table s fields), fieldsSetAfter table s fields) := by
    simp only [resolveF, heq, hfr]
  exact resolveRun_eq hrun

theorem fieldsFrom_nil (table : List (String × Json)) (s : List String) :
    resolveFieldsFrom table s .nil = .nil ∧ fieldsSetAfter table s .nil = s := by
  have hrun : resolveFieldsF table 1 JsonFields.nil s = some (.nil, s) := by
    simp [resolveFieldsF]
  exact fieldsRun_eq hrun

theorem fieldsFrom_cons (table : List (String × Json)) (s : List String)
    (key : String) (value : Json) (rest : JsonFields) :
    resolveFieldsFrom table s (.cons key value rest)
        = .cons key (resolveFrom table s value)
            (resolveFieldsFrom table (setAfter table s value) rest)
      ∧ fieldsSetAfter table s (.cons key value rest)
        = fieldsSetAfter table (setAfter table s value) rest := by
  have h1 := resolveRun_some table s value
  unfold resolveRun at h1
  have h2 := fieldsRun_some table (setAfter table s value) rest
  unfold fieldsRun at h2
  have h1m := (resolveF_fuel_mono table (resolveMeasure table s value)
    (Nat.max (resolveMeasure table s value)
      (fieldsMeasure table (setAfter table s value) rest))
    (Nat.le_max_left _ _)).1 _ _ _ h1
  have h2m := (resolveF_fuel_mono table (fieldsMeasure table (setAfter table s value) rest)
    (Nat.max (resolveMeasure table s value)
      (fieldsMeasure table (setAfter table s value) rest))
    (Nat.le_max_right _ _)).2.1 _ _ _ h2
  have hrun : resolveFieldsF table
      (Nat.max (resolveMeasure table s value)
        (fieldsMeasure table (setAfter table s value) rest) + 1)
      (.cons key value rest) s
      = some (.cons key (resolveFrom table s value)
          (resolveFieldsFrom table (setAfter table s value) rest),
        fieldsSetAfter table (setAfter table s value) rest) := by
    simp only [resolveFieldsF, h1m, h2m]
  exact fieldsRun_eq hrun

theorem resolveFrom_leaf (table : List (String × Json)) (s : List String) :
    (resolveFrom table s .null = .null ∧ setAfter table s .null = s)
      ∧ (∀ b, resolveFrom table s (.bool b) = .bool b ∧ setAfter table s (.bool b) = s)
      ∧ (∀ n, resolveFrom table s (.num n) = .num n ∧ setAfter table s (.num n) = s)
      ∧ (∀ t, resolveFrom table s (.str t) = .str t ∧ setAfter table s (.str t) = s) := by
  refine ⟨?_, fun b => ?_, fun n => ?_, fun t => ?_⟩
  · exact resolveRun_eq (show resolveF table 1 Json.null s = some (Json.null, s) by
      simp [resolveF])
  · exact resolveRun_eq (show resolveF table 1 (Json.bool b) s = some (Json.bool b, s) by
      simp [resolveF])
  · exact resolveRun_eq (show resolveF table 1 (Json.num n) s = some (Json.num n, s) by
      simp [resolveF])
  · exact resolveRun_eq (show resolveF table 1 (Json.str t) s = some (Json.str t, s) by
      simp [resolveF])


/-- A document that is exactly one `$ref` node. -/
def refObj (r : String) : Json := .obj (.cons "$ref" (.str r) .nil)

/-! ## Claims -/

/-- C2: resolving `{"$ref": "A"}` when the lookup table maps `A` to
`{"$ref": "A"}` (a self-cycle) terminates and returns the circular-reference
marker carrying `A`; more generally the embedded `resolve_references` is
total: the explicit fuel bound `resolveMeasure` always suffices for any
finite document, lookup table and in-progress set, so no input makes the
resolver run forever. -/
theorem c2_self_cycle_and_termination :
    (resolve_references [("A", refObj "A")] (refObj "A") = circularMarker "A")
      ∧ ∀ (table : List (String × Json)) (d : Json) (s : List String),
          (resolveF table (resolveMeasure table s d) d s).isSome = true := by
  constructor
  · decide
  · intro table d s
    exact (resolveF_isSome table _).1 d s (Nat.le_refl _)

/-- C1 (counterexample): with `{"a": {"$ref": "B"}, "c": {"$ref": "B"}}` and
the non-cyclic target `B ↦ {"type": "string"}` in the table, the code
inlines only the FIRST sibling; the second becomes the circular-reference
marker, because `resolved_paths` is shared by the whole call and never
pruned, so the claimed result (both siblings inlined) is false. -/
theorem c1_counterexample :
    resolve_references [("B", Json.obj (.cons "type" (Json.str "string") .nil))]
        (Json.obj (.cons "a" (refObj "B") (.cons "c" (refObj "B") .nil)))
      = Json.obj (.cons "a" (Json.obj (.cons "type" (Json.str "string") .nil))
          (.cons "c" (circularMarker "B") .nil))
    ∧ ¬ (resolve_references [("B", Json.obj (.cons "type" (Json.str "string") .nil))]
        (Json.obj (.cons "a" (refObj "B") (.cons "c" (refObj "B") .nil)))
      = Json.obj (.cons "a" (Json.obj (.cons "type" (Json.str "string") .nil))
          (.cons "c" (Json.obj (.cons "type" (Json.str "string") .nil)) .nil))) := by
  decide

/-- C1 (amended): for any mapping `{k₁: {"$ref": r}, k₂: {"$ref": r}}` whose
`r` is present in the lookup table, the first sibling is fully resolved
(under the in-progress set `[r]`), but the second sibling yields the
circular-reference marker: the in-progress set is call-global — `r` is added
on the first branch and never removed — not local to the recursion path. -/
theorem c1_shared_set_blocks_sibling (table : List (String × Json))
    (k₁ k₂ r : String) (t : Json)
    (hk₁ : k₁ ≠ "$ref") (hk₂ : k₂ ≠ "$ref") (ht : table.lookup r = some t) :
    resolve_references table
        (.obj (.cons k₁ (.obj (.cons "$ref" (.str r) .nil))
          (.cons k₂ (.obj (.cons "$ref" (.str r) .nil)) .nil)))
      = .obj (.cons k₁ (resolveFrom table [r] t)
          (.cons k₂ (circularMarker r) .nil)) := by
  unfold resolve_references
  have hlook : (JsonFields.cons k₁ (Json.obj (.cons "$ref" (.str r) .nil))
      (JsonFields.cons k₂ (Json.obj (.cons "$ref" (.str r) .nil)) .nil)).lookup "$ref"
      = none := by
    have h1 : "$ref" ≠ k₁ := fun h => hk₁ h.symm
    have h2 : "$ref" ≠ k₂ := fun h => hk₂ h.symm
    simp [JsonFields.lookup, h1, h2]
  obtain ⟨hval, _⟩ := resolveFrom_obj_plain table [] hlook
  rw [hval]
  obtain ⟨hc1, _⟩ := fieldsFrom_cons table [] k₁ (Json.obj (.cons "$ref" (.str r) .nil))
    (JsonFields.cons k₂ (Json.obj (.cons "$ref" (.str r) .nil)) .nil)
  rw [hc1]
  have href : (JsonFields.cons "$ref" (Json.str r) .nil).lookup "$ref"
      = some (Json.str r) := by simp [JsonFields.lookup]
  have hnot : r ∉ ([] : List String) := by simp
  obtain ⟨hv, hs⟩ := resolveFrom_obj_expand table [] href hnot ht
  rw [hv]
  have hrin : r ∈ setAfter table [] (Json.obj (.cons "$ref" (.str r) .nil)) := by
    rw [hs]
    exact setAfter_subset table [r] t r (List.mem_cons_self _ _)
  obtain ⟨hc2, _⟩ := fieldsFrom_cons table
    (setAfter table [] (Json.obj (.cons "$ref" (.str r) .nil))) k₂
    (Json.obj (.cons "$ref" (.str r) .nil)) .nil
  rw [hc2]
  obtain ⟨hcirc, _⟩ := resolveFrom_obj_circ table (setAfter table [] (Json.obj (.cons "$ref" (.str r) .nil))) href hrin
  rw [hcirc]
  obtain ⟨hnil, _⟩ := fieldsFrom_nil table
    (setAfter table (setAfter table [] (Json.obj (.cons "$ref" (.str r) .nil)))
      (Json.obj (.cons "$ref" (.str r) .nil)))
  rw [hnil]

/-- Witness for C1 (amended) at `k₁ = "a"`, `k₂ = "c"`, `r = "B"`,
`t = {"type": "string"}`. -/
theorem c1_shared_set_blocks_sibling_witness :
    resolve_references [("B", Json.obj (.cons "type" (Json.str "string") .nil))]
        (.obj (.cons "a" (.obj (.cons "$ref" (.str "B") .nil))
          (.cons "c" (.obj (.cons "$ref" (.str "B") .nil)) .nil)))
      = .obj (.cons "a"
          (resolveFrom [("B", Json.obj (.cons "type" (Json.str "string") .nil))] ["B"]
            (Json.obj (.cons "type" (Json.str "string") .nil)))
          (.cons "c" (circularMarker "B") .nil)) :=
  c1_shared_set_blocks_sibling
    [("B", Json.obj (.cons "type" (Json.str "string") .nil))] "a" "c" "B"
    (Json.obj (.cons "type" (Json.str "string") .nil))
    (by decide) (by decide) (by decide)

/-- C3 (counterexample): with `{"a": {"$ref": "X"}, "b": {"$ref": "X"}}` and
`X` absent from the table, the first sibling becomes the failure marker but
the second becomes the CIRCULAR marker — whereas resolving `{"$ref": "X"}`
on its own gives the failure marker — so sibling resolution is not
unaffected: the failed reference stays in the shared in-progress set. -/
theorem c3_counterexample :
    resolve_references [] (Json.obj (.cons "a" (refObj "X") (.cons "b" (refObj "X") .nil)))
      = Json.obj (.cons "a" (failureMarker "X") (.cons "b" (circularMarker "X") .nil))
    ∧ resolve_references [] (refObj "X") = failureMarker "X"
    ∧ circularMarker "X" ≠ failureMarker "X" := by
  decide

/-- C3 (amended): a `$ref` whose string `r` is absent from the lookup table
is replaced by the failure marker carrying `r` inside the resolver error
text; the overall call never aborts and every sibling field is still
resolved — but under the in-progress set already containing `r` (so a
sibling that re-references `r` gets the circular marker, as the
counterexample shows). -/
theorem c3_failure_marker_and_siblings (table : List (String × Json))
    (k₁ k₂ r : String) (v : Json)
    (hk₁ : k₁ ≠ "$ref") (hk₂ : k₂ ≠ "$ref") (ht : table.lookup r = none) :
    resolve_references table
        (.obj (.cons k₁ (.obj (.cons "$ref" (.str r) .nil)) (.cons k₂ v .nil)))
      = .obj (.cons k₁ (failureMarker r) (.cons k₂ (resolveFrom table [r] v) .nil))
    ∧ failureMarker r
      = .obj (.cons "$comment"
          (.str ("Reference resolution failed: " ++ resolverErrorText r)) .nil) := by
  refine ⟨?_, rfl⟩
  unfold resolve_references
  have hlook : (JsonFields.cons k₁ (Json.obj (.cons "$ref" (.str r) .nil))
      (JsonFields.cons k₂ v .nil)).lookup "$ref" = none := by
    have h1 : "$ref" ≠ k₁ := fun h => hk₁ h.symm
    have h2 : "$ref" ≠ k₂ := fun h => hk₂ h.symm
    simp [JsonFields.lookup, h1, h2]
  obtain ⟨hval, _⟩ := resolveFrom_obj_plain table [] hlook
  rw [hval]
  obtain ⟨hc1, _⟩ := fieldsFrom_cons table [] k₁ (Json.obj (.cons "$ref" (.str r) .nil))
    (JsonFields.cons k₂ v .nil)
  rw [hc1]
  have href : (JsonFields.cons "$ref" (Json.str r) .nil).lookup "$ref"
      = some (Json.str r) := by simp [JsonFields.lookup]
  have hnot : r ∉ ([] : List String) := by simp
  obtain ⟨hv, hs⟩ := resolveFrom_obj_fail table [] href hnot ht
  rw [hv, hs]
  obtain ⟨hc2, _⟩ := fieldsFrom_cons table [r] k₂ v .nil
  rw [hc2]
  obtain ⟨hnil, _⟩ := fieldsFrom_nil table (setAfter table [r] v)
  rw [hnil]


/-- Witness for C3 (amended) at `k₁ = "a"`, `k₂ = "b"`, `r = "X"`,
`v = null`, empty table. -/
theorem c3_failure_marker_and_siblings_witness :
    resolve_references []
        (.obj (.cons "a" (.obj (.cons "$ref" (.str "X") .nil)) (.cons "b" Json.null .nil)))
      = .obj (.cons "a" (failureMarker "X")
          (.cons "b" (resolveFrom [] ["X"] Json.null) .nil))
    ∧ failureMarker "X"
      = .obj (.cons "$comment"
          (.str ("Reference resolution failed: " ++ resolverErrorText "X")) .nil) :=
  c3_failure_marker_and_siblings [] "a" "b" "X" Json.null
    (by decide) (by decide) (by decide)

/-- The version strings of shape `v{a}.{b}.{c}` with numeric components. -/
def verString (a b c : Nat) : String :=
  String.mk ('v' :: (renderNat a ++ '.' :: (renderNat b ++ '.' :: renderNat c)))

theorem versionParts_verString (a b c : Nat) :
    versionParts (verString a b c) = [renderNat a, renderNat b, renderNat c] := by
  unfold versionParts verString
  have hdata : (String.mk ('v' :: (renderNat a ++ '.' :: (renderNat b ++ '.' :: renderNat c)))).data
      = 'v' :: (renderNat a ++ '.' :: (renderNat b ++ '.' :: renderNat c)) := rfl
  rw [hdata]
  have hsplit : splitDot (renderNat a ++ '.' :: (renderNat b ++ '.' :: renderNat c))
      = [renderNat a, renderNat b, renderNat c] := by
    rw [splitDot_append _ (renderNat_no_dot a), splitDot_append _ (renderNat_no_dot b),
      splitDot_no_dot (renderNat_no_dot c)]
  simp only [hsplit]
  rfl

theorem parse_version_verString (a b c : Nat) :
    _parse_version (verString a b c) = ((a : Int), (b : Int), (c : Int)) := by
  unfold _parse_version
  rw [versionParts_verString]
  simp only [pyInt_renderNat]

theorem versionParts_length (s : String) : (versionParts s).length = 3 := by
  unfold versionParts
  have h1 := splitDot_ne_nil (match s.data with
    | 'v' :: rest => rest
    | l => l)
  have h2 : ∀ l : List Char, splitDot l ≠ [] → 1 ≤ (splitDot l).length := by
    intro l hl
    cases h : splitDot l with
    | nil => exact absurd h hl
    | cons x xs => simp
  have h3 := h2 _ h1
  rw [List.length_take, List.length_append, List.length_replicate]
  omega

/-- C6: version parsing maps every `v{a}.{b}.{c}` with numeric components to
the numeric triple `(a, b, c)`, so ordering by the parsed key is numeric
(`v1.9.0` sorts strictly before `v1.10.0`); missing trailing components
default to `0` (`v1.2` parses as `(1, 2, 0)`); and if any of the three kept
components fails integer parsing, the whole key becomes `(0, 0, 0)` instead
of raising (e.g. `v1.x.0`). -/
theorem c6_parse_version_spec :
    (∀ a b c : Nat, _parse_version (verString a b c) = ((a : Int), (b : Int), (c : Int)))
    ∧ (versionKeyLe (_parse_version "v1.9.0") (_parse_version "v1.10.0")
        ∧ ¬ versionKeyLe (_parse_version "v1.10.0") (_parse_version "v1.9.0"))
    ∧ _parse_version "v1.2" = (1, 2, 0)
    ∧ (∀ s : String, (∃ p ∈ versionParts s, pyInt p = none) → _parse_version s = (0, 0, 0))
    ∧ _parse_version "v1.x.0" = (0, 0, 0) := by
  refine ⟨parse_version_verString, ⟨by decide, by decide⟩, by decide, ?_, by decide⟩
  intro s hp
  obtain ⟨p, hmem, hnone⟩ := hp
  have hlen := versionParts_length s
  obtain ⟨p₁, p₂, p₃, hps⟩ := List.length_eq_three.mp hlen
  unfold _parse_version
  rw [hps]
  rw [hps] at hmem
  rcases h₁ : pyInt p₁ with _ | a
  · simp [h₁]
  rcases h₂ : pyInt p₂ with _ | b
  · simp [h₁, h₂]
  rcases h₃ : pyInt p₃ with _ | c
  · simp [h₁, h₂, h₃]
  exfalso
  rcases List.mem_cons.mp hmem with rfl | hmem2
  · rw [h₁] at hnone; cases hnone
  rcases List.mem_cons.mp hmem2 with rfl | hmem3
  · rw [h₂] at hnone; cases hnone
  rcases List.mem_cons.mp hmem3 with rfl | hmem4
  · rw [h₃] at hnone; cases hnone
  · cases hmem4

/-- Witness for C6: the numeric round-trip at `(1, 2, 3)` and the
malformed-component fallback at `"v1.x.0"`. -/
theorem c6_parse_version_spec_witness :
    _parse_version (verString 1 2 3) = ((1 : Int), (2 : Int), (3 : Int))
    ∧ _parse_version "v1.x.0" = (0, 0, 0) :=
  ⟨c6_parse_version_spec.1 1 2 3,
   c6_parse_version_spec.2.2.2.1 "v1.x.0" ⟨['x'], by decide, by decide⟩⟩


theorem schemaInfoLe_refl (x : SchemaInfo) : schemaInfoLe x x := by
  unfold schemaInfoLe versionKeyLe
  omega

theorem getLast?_mem {α : Type} {l : List α} {m : α} (h : l.getLast? = some m) :
    m ∈ l := by
  induction l with
  | nil => simp at h
  | cons a t ih =>
    cases t with
    | nil =>
      simp [List.getLast?] at h
      subst h
      exact List.mem_cons_self _ _
    | cons b u =>
      rw [List.getLast?_cons_cons] at h
      exact List.mem_cons_of_mem _ (ih h)

theorem sorted_getLast?_max {α : Type} {r : α → α → Prop} {l : List α} {m : α}
    (hs : List.Sorted r l) (h : l.getLast? = some m) :
    ∀ x ∈ l, x = m ∨ r x m := by
  induction l with
  | nil => simp at h
  | cons a t ih =>
    rw [List.sorted_cons] at hs
    obtain ⟨ha, ht⟩ := hs
    cases t with
    | nil =>
      simp [List.getLast?] at h
      subst h
      intro x hx
      rcases List.mem_cons.mp hx with rfl | hx2
      · exact Or.inl rfl
      · cases hx2
    | cons b u =>
      rw [List.getLast?_cons_cons] at h
      intro x hx
      rcases List.mem_cons.mp hx with rfl | hx2
      · exact Or.inr (ha m (getLast?_mem h))
      · exact ih ht h x hx2

/-- C4: on every non-empty discovered family, `get_schema(name, "latest")`
returns a record of the family that is non-deprecated and highest-ordered
among the non-deprecated records whenever any non-deprecated record exists,
and the highest-ordered record overall when every record is deprecated.  In
particular `[v1.0.0, v2.0.0 (deprecated), v1.5.0]` yields `v1.5.0`, and the
all-deprecated variant yields `v2.0.0`. -/
theorem c4_latest_selection :
    (∀ l : List SchemaInfo, l ≠ [] →
      ∃ rcd, get_schema_latest_of l = some rcd ∧ rcd ∈ l
        ∧ ((∃ x ∈ l, x.deprecated = false) →
            rcd.deprecated = false
              ∧ ∀ x ∈ l, x.deprecated = false → schemaInfoLe x rcd)
        ∧ ((∀ x ∈ l, x.deprecated = true) → ∀ x ∈ l, schemaInfoLe x rcd))
    ∧ get_schema_latest_of
        [⟨"w", "v1.0.0", "", Json.null, Json.null, Json.null, false⟩,
         ⟨"w", "v2.0.0", "", Json.null, Json.null, Json.null, true⟩,
         ⟨"w", "v1.5.0", "", Json.null, Json.null, Json.null, false⟩]
      = some ⟨"w", "v1.5.0", "", Json.null, Json.null, Json.null, false⟩
    ∧ get_schema_latest_of
        [⟨"w", "v1.0.0", "", Json.null, Json.null, Json.null, true⟩,
         ⟨"w", "v2.0.0", "", Json.null, Json.null, Json.null, true⟩,
         ⟨"w", "v1.5.0", "", Json.null, Json.null, Json.null, true⟩]
      = some ⟨"w", "v2.0.0", "", Json.null, Json.null, Json.null, true⟩ := by
  refine ⟨?_, by decide, by decide⟩
  intro l hne
  unfold get_schema_latest_of get_schema_latest
  have hsort : List.Sorted schemaInfoLe (sortVersions l) :=
    List.sorted_insertionSort _ l
  have hperm : List.Perm (sortVersions l) l := List.perm_insertionSort _ l
  have hslne : sortVersions l ≠ [] := by
    intro h0
    exact hne (List.Perm.nil_eq (h0 ▸ hperm)).symm
  rw [if_neg hslne]
  by_cases hndnil : (sortVersions l).filter (fun v => !v.deprecated) = []
  · rw [if_pos hndnil]
    have hsome : ((sortVersions l).getLast?).isSome = true := by
      rw [List.getLast?_isSome]
      exact hslne
    obtain ⟨m, hm⟩ := Option.isSome_iff_exists.mp hsome
    rw [hm]
    refine ⟨m, rfl, hperm.mem_iff.mp (getLast?_mem hm), ?_, ?_⟩
    · rintro ⟨x, hx, hxdep⟩
      exfalso
      have hx' : x ∈ (sortVersions l).filter (fun v => !v.deprecated) :=
        List.mem_filter.mpr ⟨hperm.mem_iff.mpr hx, by simp [hxdep]⟩
      rw [hndnil] at hx'
      cases hx'
    · intro hall x hx
      have hx' : x ∈ sortVersions l := hperm.mem_iff.mpr hx
      rcases sorted_getLast?_max hsort hm x hx' with rfl | hle
      · exact schemaInfoLe_refl x
      · exact hle
  · rw [if_neg hndnil]
    have hsome : (((sortVersions l).filter (fun v => !v.deprecated)).getLast?).isSome = true := by
      rw [List.getLast?_isSome]
      exact hndnil
    obtain ⟨m, hm⟩ := Option.isSome_iff_exists.mp hsome
    rw [hm]
    have hndsort : List.Sorted schemaInfoLe
        ((sortVersions l).filter (fun v => !v.deprecated)) :=
      List.Pairwise.filter _ hsort
    have hmnd := getLast?_mem hm
    have hmparts := List.mem_filter.mp hmnd
    have hmdep : m.deprecated = false := by
      have := hmparts.2
      simp at this
      exact this
    refine ⟨m, rfl, hperm.mem_iff.mp hmparts.1, ?_, ?_⟩
    · intro _
      refine ⟨hmdep, ?_⟩
      intro x hx hxdep
      have hx' : x ∈ (sortVersions l).filter (fun v => !v.deprecated) :=
        List.mem_filter.mpr ⟨hperm.mem_iff.mpr hx, by simp [hxdep]⟩
      rcases sorted_getLast?_max hndsort hm x hx' with rfl | hle
      · exact schemaInfoLe_refl x
      · exact hle
    · intro hall
      exfalso
      obtain ⟨y, hy⟩ : ∃ y, y ∈ (sortVersions l).filter (fun v => !v.deprecated) := by
        cases hc : (sortVersions l).filter (fun v => !v.deprecated) with
        | nil => exact absurd hc hndnil
        | cons a t =>
          exact ⟨a, by simp [hc]⟩
      have hyparts := List.mem_filter.mp hy
      have hydep : y.deprecated = false := by
        have := hyparts.2
        simp at this
        exact this
      have := hall y (hperm.mem_iff.mp hyparts.1)
      rw [hydep] at this
      cases this

/-- Witness for C4 (general part) at the three-version example family. -/
theorem c4_latest_selection_witness :
    ∃ rcd : SchemaInfo, get_schema_latest_of
        [⟨"w", "v1.0.0", "", Json.null, Json.null, Json.null, false⟩,
         ⟨"w", "v2.0.0", "", Json.null, Json.null, Json.null, true⟩,
         ⟨"w", "v1.5.0", "", Json.null, Json.null, Json.null, false⟩]
      = some rcd
    ∧ rcd ∈ ([⟨"w", "v1.0.0", "", Json.null, Json.null, Json.null, false⟩,
         ⟨"w", "v2.0.0", "", Json.null, Json.null, Json.null, true⟩,
         ⟨"w", "v1.5.0", "", Json.null, Json.null, Json.null, false⟩] : List SchemaInfo)
    ∧ rcd.deprecated = false := by
  obtain ⟨rcd, h1, h2, h3, _⟩ := c4_latest_selection.1
    [⟨"w", "v1.0.0", "", Json.null, Json.null, Json.null, false⟩,
     ⟨"w", "v2.0.0", "", Json.null, Json.null, Json.null, true⟩,
     ⟨"w", "v1.5.0", "", Json.null, Json.null, Json.null, false⟩]
    (by decide)
  refine ⟨rcd, h1, h2, ?_⟩
  exact (h3 ⟨⟨"w", "v1.0.0", "", Json.null, Json.null, Json.null, false⟩,
    List.mem_cons_self _ _, rfl⟩).1

theorem normRefsFields_cons_ne (base : String) (key : String) (value : Json)
    (rest : JsonFields) (hkey : key ≠ "$ref") :
    normRefsFields base (.cons key value rest)
      = .cons key (_normalize_refs base value) (normRefsFields base rest) := by
  cases value <;> simp [normRefsFields, hkey]

theorem normRefsFields_cons_ref_str (base : String) (s : String) (rest : JsonFields) :
    normRefsFields base (.cons "$ref" (.str s) rest)
      = .cons "$ref" (.str (rewriteRefStr base s)) (normRefsFields base rest) := by
  simp [normRefsFields]

theorem refsOfFields_cons_ne (key : String) (value : Json) (rest : JsonFields)
    (hkey : key ≠ "$ref") :
    refsOfFields (.cons key value rest) = refsOf value ++ refsOfFields rest := by
  cases value <;> simp [refsOfFields, hkey]

theorem refsOfFields_cons_ref_str (s : String) (rest : JsonFields) :
    refsOfFields (.cons "$ref" (.str s) rest) = s :: refsOfFields rest := by
  simp [refsOfFields]

theorem norm_str (base : String) (s : String) :
    _normalize_refs base (.str s) = .str s := rfl

/-- Keys other than `$ref` keep their (recursively normalized) values, and in
particular a string-valued `$id` is untouched by `_normalize_refs`. -/
theorem lookup_normRefsFields_ne (base : String) (fields : JsonFields) {k : String}
    (hk : k ≠ "$ref") :
    (normRefsFields base fields).lookup k
      = (fields.lookup k).map (_normalize_refs base) := by
  induction fields using jsonFields_ind with
  | hnil => rfl
  | hcons key value rest ih =>
    by_cases hkey : key = "$ref"
    · subst hkey
      have hne : k ≠ "$ref" := hk
      cases value with
      | str s =>
        simp only [normRefsFields, if_pos rfl]
        simp [JsonFields.lookup, hne, ih]
      | null =>
        simp only [normRefsFields, if_pos rfl]
        simp [JsonFields.lookup, hne, ih]
      | bool b =>
        simp only [normRefsFields, if_pos rfl]
        simp [JsonFields.lookup, hne, ih]
      | num n =>
        simp only [normRefsFields, if_pos rfl]
        simp [JsonFields.lookup, hne, ih]
      | arr xs =>
        simp only [normRefsFields, if_pos rfl]
        simp [JsonFields.lookup, hne, ih]
      | obj fs =>
        simp only [normRefsFields, if_pos rfl]
        simp [JsonFields.lookup, hne, ih]
    · rw [normRefsFields_cons_ne base key value rest hkey]
      by_cases hkk : k = key
      · simp [JsonFields.lookup, hkk]
      · simp [JsonFields.lookup, hkk, ih]

theorem lookup_setId (fields : JsonFields) (v : Json) {w : Json}
    (h : fields.lookup "$id" = some w) :
    (setId fields v).lookup "$id" = some v := by
  induction fields using jsonFields_ind with
  | hnil => simp [JsonFields.lookup] at h
  | hcons key value rest ih =>
    by_cases hkey : key = "$id"
    · subst hkey
      simp [setId, JsonFields.lookup]
    · have hne : "$id" ≠ key := fun hh => hkey hh.symm
      simp only [JsonFields.lookup, if_neg hne] at h
      simp only [setId]
      split
      · rename_i hk2
        exact absurd hk2 hkey
      · simp only [JsonFields.lookup, if_neg hne]
        exact ih h

/-- The `$ref` strings of the normalized tree are exactly the rewrites of the
original `$ref` strings, in tree order. -/
theorem refsOf_normalize_refs (base : String) :
    (∀ d, refsOf (_normalize_refs base d) = (refsOf d).map (rewriteRefStr base))
    ∧ (∀ l, refsOfItems (normRefsItems base l) = (refsOfItems l).map (rewriteRefStr base))
    ∧ (∀ fs, refsOfFields (normRefsFields base fs)
        = (refsOfFields fs).map (rewriteRefStr base)) := by
  refine json_ind
    (fun d => refsOf (_normalize_refs base d) = (refsOf d).map (rewriteRefStr base))
    (fun l => refsOfItems (normRefsItems base l)
      = (refsOfItems l).map (rewriteRefStr base))
    (fun fs => refsOfFields (normRefsFields base fs)
      = (refsOfFields fs).map (rewriteRefStr base))
    ?_ ?_ ?_ ?_ ?_ ?_ ?_ ?_ ?_ ?_
  · rfl
  · intro b; rfl
  · intro n; rfl
  · intro s; rfl
  · intro xs ih
    simp [_normalize_refs, refsOf, ih]
  · intro fs ih
    simp [_normalize_refs, refsOf, ih]
  · rfl
  · intro x xs ihx ihxs
    simp [normRefsItems, refsOfItems, ihx, ihxs]
  · rfl
  · intro k v t ihv iht
    by_cases hk : k = "$ref"
    · subst hk
      cases v with
      | str s => simp [normRefsFields, refsOfFields, iht]
      | null => simp [normRefsFields, refsOfFields, refsOf, _normalize_refs, iht]
      | bool b => simp [normRefsFields, refsOfFields, refsOf, _normalize_refs, iht]
      | num n => simp [normRefsFields, refsOfFields, refsOf, _normalize_refs, iht]
      | arr xs =>
        have ihv' : refsOfItems (normRefsItems base xs)
            = (refsOfItems xs).map (rewriteRefStr base) := by
          simpa [_normalize_refs, refsOf] using ihv
        simp [normRefsFields, refsOfFields, refsOf, _normalize_refs, ihv', iht]
      | obj fs =>
        have ihv' : refsOfFields (normRefsFields base fs)
            = (refsOfFields fs).map (rewriteRefStr base) := by
          simpa [_normalize_refs, refsOf] using ihv
        simp [normRefsFields, refsOfFields, refsOf, _normalize_refs, ihv', iht]
    · rw [normRefsFields_cons_ne base k v t hk,
        refsOfFields_cons_ne k (_normalize_refs base v) (normRefsFields base t) hk,
        refsOfFields_cons_ne k v t hk]
      simp [ihv, iht]

/-- C5: `_normalize_schema_ids` rewrites identifiers as specified: a
top-level string `$id` beginning with `/` is prefixed with the base URL
(concretely, `{"$id": "/widget"}` becomes `{"$id": "http://h/widget"}`); a
string `$id` not beginning with `/` and not starting with `http` is replaced
entirely by `base/schemas/{name}/{version}`; any other `$id` is kept; and
throughout the whole tree every string-valued `$ref` is rewritten by the
three-case rule (prefix a leading `/` with the base URL, rewrite a non-http
bare name to `base/schemas/{value}`, leave anything starting with `http`
unchanged). -/
theorem c5_normalize_ids_spec :
    (_normalize_schema_ids "http://h" "widget" "v1.0.0"
        (.obj (.cons "$id" (.str "/widget") .nil))
      = some (.obj (.cons "$id" (.str "http://h/widget") .nil)))
    ∧ (∀ base name ver fields current_id,
        fields.lookup "$id" = some (.str current_id) →
        ∃ fields', _normalize_schema_ids base name ver (.obj fields)
            = some (.obj fields')
          ∧ fields'.lookup "$id" = some (.str
              (if pyStartsWith current_id "/" = true then base ++ current_id
               else if pyStartsWith current_id "http" = false then
                 base ++ "/schemas/" ++ name ++ "/" ++ ver
               else current_id)))
    ∧ (∀ base s, rewriteRefStr base s
        = if pyStartsWith s "/" = true then base ++ s
          else if pyStartsWith s "http" = false then base ++ "/schemas/" ++ s
          else s)
    ∧ (∀ base d, refsOf (_normalize_refs base d)
        = (refsOf d).map (rewriteRefStr base)) := by
  refine ⟨by decide, ?_, fun base s => rfl, fun base => (refsOf_normalize_refs base).1⟩
  intro base name ver fields current_id h
  unfold _normalize_schema_ids
  simp only [h]
  by_cases h1 : pyStartsWith current_id "/" = true
  · rw [if_pos h1]
    refine ⟨normRefsFields base (setId fields (.str (base ++ current_id))), ?_, ?_⟩
    · simp [_normalize_refs]
    · rw [lookup_normRefsFields_ne base _ (by decide),
        lookup_setId fields _ h, if_pos h1]
      rfl
  · rw [if_neg h1]
    by_cases h2 : pyStartsWith current_id "http" = false
    · rw [if_pos h2]
      refine ⟨normRefsFields base
        (setId fields (.str (base ++ "/schemas/" ++ name ++ "/" ++ ver))), ?_, ?_⟩
      · simp [_normalize_refs]
      · rw [lookup_normRefsFields_ne base _ (by decide),
          lookup_setId fields _ h, if_neg h1, if_pos h2]
        rfl
    · rw [if_neg h2]
      refine ⟨normRefsFields base fields, ?_, ?_⟩
      · simp [_normalize_refs]
      · rw [lookup_normRefsFields_ne base _ (by decide), h, if_neg h1, if_neg h2]
        rfl

/-- Witness for C5 at the `{"$id": "bare"}` input (the replace-entirely
branch). -/
theorem c5_normalize_ids_spec_witness :
    ∃ fields' : JsonFields, _normalize_schema_ids "http://h" "widget" "v1.0.0"
        (.obj (.cons "$id" (.str "bare") .nil))
      = some (.obj fields')
    ∧ fields'.lookup "$id" = some (.str
        (if pyStartsWith "bare" "/" = true then "http://h" ++ "bare"
         else if pyStartsWith "bare" "http" = false then
           "http://h" ++ "/schemas/" ++ "widget" ++ "/" ++ "v1.0.0"
         else "bare")) :=
  c5_normalize_ids_spec.2.1 "http://h" "widget" "v1.0.0"
    (.cons "$id" (.str "bare") .nil) "bare" (by decide)


theorem rewriteRefStr_http {base : String} (s : String)
    (hbase : pyStartsWith base "http" = true) :
    pyStartsWith (rewriteRefStr base s) "http" = true := by
  unfold rewriteRefStr
  by_cases h1 : pyStartsWith s "/" = true
  · rw [if_pos h1]
    exact pyStartsWith_append s hbase
  · rw [if_neg h1]
    by_cases h2 : pyStartsWith s "http" = false
    · rw [if_pos h2]
      have := pyStartsWith_append "/schemas/" hbase
      exact pyStartsWith_append s this
    · rw [if_neg h2]
      exact Bool.eq_true_of_not_eq_false h2

theorem rewriteRefStr_of_http {base x : String}
    (hx : pyStartsWith x "http" = true) : rewriteRefStr base x = x := by
  unfold rewriteRefStr
  rw [pyStartsWith_http_not_slash hx, hx]
  simp

theorem norm_not_str (base : String) (v : Json) (hns : ∀ t, v ≠ .str t) :
    ∀ t, _normalize_refs base v ≠ .str t := by
  cases v with
  | str s => exact absurd rfl (hns s)
  | null => intro t h; exact Json.noConfusion h
  | bool b => intro t h; exact Json.noConfusion h
  | num n => intro t h; exact Json.noConfusion h
  | arr xs => intro t h; simp [_normalize_refs] at h
  | obj fs => intro t h; simp [_normalize_refs] at h

/-- Once every `$ref` string starts with `http`, a second `_normalize_refs`
pass is the identity. -/
theorem normalize_refs_idem {base : String} (hbase : pyStartsWith base "http" = true) :
    (∀ d, _normalize_refs base (_normalize_refs base d) = _normalize_refs base d)
    ∧ (∀ l, normRefsItems base (normRefsItems base l) = normRefsItems base l)
    ∧ (∀ fs, normRefsFields base (normRefsFields base fs) = normRefsFields base fs) := by
  refine json_ind
    (fun d => _normalize_refs base (_normalize_refs base d) = _normalize_refs base d)
    (fun l => normRefsItems base (normRefsItems base l) = normRefsItems base l)
    (fun fs => normRefsFields base (normRefsFields base fs) = normRefsFields base fs)
    ?_ ?_ ?_ ?_ ?_ ?_ ?_ ?_ ?_ ?_
  · rfl
  · intro b; rfl
  · intro n; rfl
  · intro s; rfl
  · intro xs ih
    simp [_normalize_refs, ih]
  · intro fs ih
    simp [_normalize_refs, ih]
  · rfl
  · intro x xs ihx ihxs
    simp [normRefsItems, ihx, ihxs]
  · rfl
  · intro k v t ihv iht
    by_cases hk : k = "$ref"
    · subst hk
      cases v with
      | str s =>
        rw [normRefsFields_cons_ref_str, normRefsFields_cons_ref_str,
          rewriteRefStr_of_http (rewriteRefStr_http s hbase), iht]
      | null =>
        simp [normRefsFields, _normalize_refs, iht]
      | bool b =>
        simp [normRefsFields, _normalize_refs, iht]
      | num n =>
        simp [normRefsFields, _normalize_refs, iht]
      | arr xs =>
        have h1 : normRefsFields base (.cons "$ref" (Json.arr xs) t)
            = .cons "$ref" (Json.arr (normRefsItems base xs)) (normRefsFields base t) := by
          simp [normRefsFields, _normalize_refs]
        have h2 : normRefsFields base
            (.cons "$ref" (Json.arr (normRefsItems base xs)) (normRefsFields base t))
            = .cons "$ref" (Json.arr (normRefsItems base (normRefsItems base xs)))
              (normRefsFields base (normRefsFields base t)) := by
          simp [normRefsFields, _normalize_refs]
        rw [h1, h2, iht]
        have ihv' : normRefsItems base (normRefsItems base xs) = normRefsItems base xs := by
          simpa [_normalize_refs] using ihv
        rw [ihv']
      | obj fs =>
        have h1 : normRefsFields base (.cons "$ref" (Json.obj fs) t)
            = .cons "$ref" (Json.obj (normRefsFields base fs)) (normRefsFields base t) := by
          simp [normRefsFields, _normalize_refs]
        have h2 : normRefsFields base
            (.cons "$ref" (Json.obj (normRefsFields base fs)) (normRefsFields base t))
            = .cons "$ref" (Json.obj (normRefsFields base (normRefsFields base fs)))
              (normRefsFields base (normRefsFields base t)) := by
          simp [normRefsFields, _normalize_refs]
        rw [h1, h2, iht]
        have ihv' : normRefsFields base (normRefsFields base fs) = normRefsFields base fs := by
          simpa [_normalize_refs] using ihv
        rw [ihv']
    · rw [normRefsFields_cons_ne base k v t hk,
        normRefsFields_cons_ne base k (_normalize_refs base v) (normRefsFields base t) hk,
        ihv, iht]


theorem norm_obj_shape (base : String) (fields : JsonFields) :
    _normalize_refs base (Json.obj fields) = .obj (normRefsFields base fields) := by
  simp [_normalize_refs]

/-- A second `_normalize_schema_ids` pass fixes an object whose `$id` already
starts with `http`. -/
theorem second_pass_id (base name ver : String) (fields'' : JsonFields) (newid : String)
    (hbase : pyStartsWith base "http" = true)
    (hl : fields''.lookup "$id" = some (.str newid))
    (hnew : pyStartsWith newid "http" = true) :
    _normalize_schema_ids base name ver (_normalize_refs base (.obj fields''))
      = some (_normalize_refs base (.obj fields'')) := by
  rw [norm_obj_shape]
  unfold _normalize_schema_ids
  have hl2 : (normRefsFields base fields'').lookup "$id" = some (.str newid) := by
    rw [lookup_normRefsFields_ne base fields'' (by decide), hl]
    rfl
  simp only [hl2]
  rw [pyStartsWith_http_not_slash hnew, hnew]
  simp only [Bool.false_eq_true, if_false, Bool.true_eq_false]
  rw [norm_obj_shape, (normalize_refs_idem hbase).2.2 fields'']

/-- C10: when `base_url` itself starts with `http`, `_normalize_schema_ids`
is idempotent: every `$id` and `$ref` produced by a successful first pass
starts with `http`, so a second pass returns its input unchanged (`some d'`
with the same `d'`). -/
theorem c10_normalize_idempotent (base name ver : String) (d d' : Json)
    (hbase : pyStartsWith base "http" = true)
    (h : _normalize_schema_ids base name ver d = some d') :
    _normalize_schema_ids base name ver d' = some d' := by
  cases d with
  | null =>
    rw [show _normalize_schema_ids base name ver Json.null = some Json.null from rfl] at h
    injection h with h
    subst h
    rfl
  | bool b =>
    rw [show _normalize_schema_ids base name ver (Json.bool b) = some (Json.bool b) from rfl] at h
    injection h with h
    subst h
    rfl
  | num n =>
    rw [show _normalize_schema_ids base name ver (Json.num n) = some (Json.num n) from rfl] at h
    injection h with h
    subst h
    rfl
  | str s =>
    rw [show _normalize_schema_ids base name ver (Json.str s) = some (Json.str s) from rfl] at h
    injection h with h
    subst h
    rfl
  | arr items =>
    rw [show _normalize_schema_ids base name ver (Json.arr items) = some (Json.arr items) from rfl] at h
    injection h with h
    subst h
    rfl
  | obj fields =>
    unfold _normalize_schema_ids at h
    rcases hid : fields.lookup "$id" with _ | v
    · simp only [hid] at h
      injection h with h
      subst h
      rw [norm_obj_shape]
      unfold _normalize_schema_ids
      have hl : (normRefsFields base fields).lookup "$id" = none := by
        rw [lookup_normRefsFields_ne base fields (by decide), hid]
        rfl
      simp only [hl]
      rw [norm_obj_shape, (normalize_refs_idem hbase).2.2 fields]
    · cases v with
      | str i =>
        simp only [hid] at h
        by_cases h1 : pyStartsWith i "/" = true
        · rw [if_pos h1] at h
          injection h with h
          subst h
          exact second_pass_id base name ver _ (base ++ i) hbase
            (lookup_setId fields _ hid) (pyStartsWith_append i hbase)
        · rw [if_neg h1] at h
          by_cases h2 : pyStartsWith i "http" = false
          · rw [if_pos h2] at h
            injection h with h
            subst h
            refine second_pass_id base name ver _
              (base ++ "/schemas/" ++ name ++ "/" ++ ver) hbase
              (lookup_setId fields _ hid) ?_
            exact pyStartsWith_append ver
              (pyStartsWith_append "/"
                (pyStartsWith_append name (pyStartsWith_append "/schemas/" hbase)))
          · rw [if_neg h2] at h
            injection h with h
            subst h
            exact second_pass_id base name ver fields i hbase hid
              (Bool.eq_true_of_not_eq_false h2)
      | null => simp only [hid] at h; cases h
      | bool b => simp only [hid] at h; cases h
      | num n => simp only [hid] at h; cases h
      | arr xs => simp only [hid] at h; cases h
      | obj fs => simp only [hid] at h; cases h

/-- Witness for C10: the output of normalizing `{"$id": "/w"}` under base
`http://h` is a fixed point of a second pass. -/
theorem c10_normalize_idempotent_witness :
    _normalize_schema_ids "http://h" "n" "v"
        (.obj (.cons "$id" (.str "http://h/w") .nil))
      = some (.obj (.cons "$id" (.str "http://h/w") .nil)) :=
  c10_normalize_idempotent "http://h" "n" "v"
    (.obj (.cons "$id" (.str "/w") .nil))
    (.obj (.cons "$id" (.str "http://h/w") .nil))
    (by decide) (by decide)


/-- Record `info` carries identifier `s` (its data is a dict whose `$id` is
the string `s`). -/
def recordHasId (info : SchemaInfo) (s : String) : Bool :=
  match info.data with
  | .obj fields => decide (fields.lookup "$id" = some (.str s))
  | _ => false

/-- The shape `get_all_schemas_dict` can process without raising: the
record's data is a dict, and a present truthy `$id` is a string (which the
discovery pipeline guarantees, see `_normalize_schema_ids`). -/
def recordSafe (info : SchemaInfo) : Bool :=
  match info.data with
  | .obj fields =>
    match fields.lookup "$id" with
    | some (.str _) => true
    | some v => !jsonTruthy v
    | none => true
  | _ => false

theorem lookup_insertLWW (acc : List (String × Json)) (k s : String) (v : Json) :
    List.lookup s (insertLWW acc k v) = if s = k then some v else List.lookup s acc := by
  induction acc with
  | nil =>
    by_cases hsk : s = k
    · subst hsk
      simp [insertLWW, List.lookup]
    · have hbeq : (s == k) = false := by simp [hsk]
      simp [insertLWW, List.lookup, hbeq, hsk]
  | cons p t ih =>
    obtain ⟨k', v'⟩ := p
    by_cases hk : k' = k
    · subst hk
      by_cases hsk : s = k'
      · subst hsk
        simp [insertLWW, List.lookup]
      · have hbeq : (s == k') = false := by simp [hsk]
        simp [insertLWW, List.lookup, hbeq, hsk]
    · by_cases hsk : s = k'
      · subst hsk
        have hbeq : (s == s) = true := by simp
        simp [insertLWW, List.lookup, hk, hbeq]
      · have hbeq : (s == k') = false := by simp [hsk]
        simp [insertLWW, List.lookup, hk, hbeq, ih]

theorem find?_append {α : Type} (p : α → Bool) (l₁ l₂ : List α) :
    List.find? p (l₁ ++ l₂)
      = match List.find? p l₁ with
        | some x => some x
        | none => List.find? p l₂ := by
  induction l₁ with
  | nil => simp
  | cons a t ih =>
    rcases ha : p a with _ | _
    · simp only [List.cons_append, List.find?, ha]
      exact ih
    · simp only [List.cons_append, List.find?, ha]

theorem getAllSchemasGo_spec :
    ∀ (records : List SchemaInfo) (acc : List (String × Json)),
      (∀ r ∈ records, recordSafe r = true) →
      ∃ tbl, getAllSchemasGo records acc = some tbl
        ∧ ∀ s : String, s ≠ "" →
            List.lookup s tbl
              = match records.reverse.find? (fun r => recordHasId r s) with
                | some r => some r.data
                | none => List.lookup s acc := by
  intro records
  induction records with
  | nil =>
    intro acc hsafe
    exact ⟨acc, rfl, fun s hs => by simp⟩
  | cons info rest ih =>
    intro acc hsafe
    have hinfo := hsafe info (List.mem_cons_self _ _)
    have hrest : ∀ r ∈ rest, recordSafe r = true :=
      fun r hr => hsafe r (List.mem_cons_of_mem _ hr)
    rcases hdata : info.data with _ | _ | _ | _ | _ | fields
    case null => simp [recordSafe, hdata] at hinfo
    case bool => simp [recordSafe, hdata] at hinfo
    case num => simp [recordSafe, hdata] at hinfo
    case str => simp [recordSafe, hdata] at hinfo
    case arr => simp [recordSafe, hdata] at hinfo
    case obj =>
    simp only [recordSafe, hdata] at hinfo
    have hstep : ∀ acc', getAllSchemasGo (info :: rest) acc'
        = match fields.lookup "$id" with
          | none => getAllSchemasGo rest acc'
          | some v =>
            if jsonTruthy v = true then
              match v with
              | .str s => getAllSchemasGo rest (insertLWW acc' s info.data)
              | _ => none
            else getAllSchemasGo rest acc' := by
      intro acc'
      simp [getAllSchemasGo, hdata]
    have hid_of : ∀ s, recordHasId info s
        = decide (fields.lookup "$id" = some (.str s)) := by
      intro s
      simp [recordHasId, hdata]
    rcases hid : fields.lookup "$id" with _ | v
    · simp only [hid] at hstep
      obtain ⟨tbl, htbl, hchar⟩ := ih acc hrest
      refine ⟨tbl, by rw [hstep]; exact htbl, ?_⟩
      intro s hs
      rw [hchar s hs, List.reverse_cons, find?_append]
      have hfalse : recordHasId info s = false := by
        rw [hid_of, hid]
        simp
      rcases hfind : rest.reverse.find? (fun r => recordHasId r s) with _ | r
      · simp [List.find?, hfalse]
      · rfl
    · simp only [hid] at hinfo hstep
      by_cases htr : jsonTruthy v = true
      · simp only [htr, eq_self_iff_true, if_true] at hstep
        cases v with
        | str t =>
          obtain ⟨tbl, htbl, hchar⟩ := ih (insertLWW acc t info.data) hrest
          refine ⟨tbl, by rw [hstep]; exact htbl, ?_⟩
          intro s hs
          rw [hchar s hs, List.reverse_cons, find?_append]
          rcases hfind : rest.reverse.find? (fun r => recordHasId r s) with _ | r
          · by_cases hst : s = t
            · subst hst
              have htrue : recordHasId info s = true := by
                rw [hid_of, hid]
                simp
              simp only [List.find?, htrue]
              rw [lookup_insertLWW, if_pos rfl]
            · have hfalse : recordHasId info s = false := by
                rw [hid_of, hid]
                simp
                intro hh
                exact absurd hh.symm hst
              simp only [List.find?, hfalse]
              rw [lookup_insertLWW, if_neg hst]
          · rfl
        | null => simp at hinfo; rw [hinfo] at htr; cases htr
        | bool b => simp at hinfo; rw [hinfo] at htr; cases htr
        | num n => simp at hinfo; rw [hinfo] at htr; cases htr
        | arr xs => simp at hinfo; rw [hinfo] at htr; cases htr
        | obj fs => simp at hinfo; rw [hinfo] at htr; cases htr
      · have htrf : jsonTruthy v = false := by
          rw [Bool.not_eq_true] at htr
          exact htr
        simp only [htrf, Bool.false_eq_true, if_false] at hstep
        obtain ⟨tbl, htbl, hchar⟩ := ih acc hrest
        refine ⟨tbl, by rw [hstep]; exact htbl, ?_⟩
        intro s hs
        rw [hchar s hs, List.reverse_cons, find?_append]
        have hfalse : recordHasId info s = false := by
          rw [hid_of, hid]
          simp only [decide_eq_false_iff_not]
          intro hh
          injection hh with hh
          subst hh
          apply htr
          simp only [jsonTruthy, decide_eq_true_eq]
          exact hs
        rcases hfind : rest.reverse.find? (fun r => recordHasId r s) with _ | r
        · simp [List.find?, hfalse]
        · rfl

/-- C7: `get_all_schemas_dict` maps every discovered record's identifier to
that record's document; when several records share an identifier the mapping
holds the document of the record seen LAST in discovery order (dict
assignment overwrites).  Stated for records of the shape the discovery
pipeline produces (dict data, string-or-absent `$id`). -/
theorem c7_all_schemas_dict_last_wins (records : List SchemaInfo)
    (hsafe : ∀ r ∈ records, recordSafe r = true) :
    ∃ tbl, get_all_schemas_dict records = some tbl
      ∧ ∀ s : String, s ≠ "" →
          List.lookup s tbl
            = match records.reverse.find? (fun r => recordHasId r s) with
              | some r => some r.data
              | none => none := by
  obtain ⟨tbl, htbl, hchar⟩ := getAllSchemasGo_spec records [] hsafe
  refine ⟨tbl, htbl, ?_⟩
  intro s hs
  rw [hchar s hs]
  rcases rest : records.reverse.find? (fun r => recordHasId r s) with _ | r
  · rfl
  · rfl

/-- Witness for C7: two records sharing identifier `u`; the mapping holds the
second record's document. -/
theorem c7_all_schemas_dict_last_wins_witness :
    ∃ tbl, get_all_schemas_dict
        [⟨"a", "v1.0.0", "", .obj (.cons "$id" (.str "u") (.cons "n" (.num 1) .nil)),
           Json.null, Json.null, false⟩,
         ⟨"b", "v1.0.0", "", .obj (.cons "$id" (.str "u") (.cons "n" (.num 2) .nil)),
           Json.null, Json.null, false⟩]
      = some tbl
    ∧ List.lookup "u" tbl
        = some (.obj (.cons "$id" (.str "u") (.cons "n" (.num 2) .nil))) := by
  obtain ⟨tbl, htbl, hchar⟩ := c7_all_schemas_dict_last_wins
    [⟨"a", "v1.0.0", "", .obj (.cons "$id" (.str "u") (.cons "n" (.num 1) .nil)),
       Json.null, Json.null, false⟩,
     ⟨"b", "v1.0.0", "", .obj (.cons "$id" (.str "u") (.cons "n" (.num 2) .nil)),
       Json.null, Json.null, false⟩]
    (by decide)
  refine ⟨tbl, htbl, ?_⟩
  rw [hchar "u" (by decide)]
  decide


/-- The file contents `_discover_versions` can process without an uncaught
exception: either unparseable (caught and skipped), or a dict whose `$id`,
when present, is a string. -/
def contentSafe : Option Json → Bool
  | none => true
  | some (.obj fields) =>
    match fields.lookup "$id" with
    | some (.str _) => true
    | some _ => false
    | none => true
  | some _ => false

theorem normalize_obj_some (base name ver : String) (fields : JsonFields)
    (hsafe : contentSafe (some (.obj fields)) = true) :
    ∃ fields', _normalize_schema_ids base name ver (.obj fields)
      = some (.obj fields') := by
  unfold _normalize_schema_ids
  rcases hid : fields.lookup "$id" with _ | v
  · simp only [hid]
    exact ⟨normRefsFields base fields, by rw [norm_obj_shape]⟩
  · simp only [contentSafe, hid] at hsafe
    cases v with
    | str i =>
      simp only [hid]
      by_cases h1 : pyStartsWith i "/" = true
      · rw [if_pos h1]
        exact ⟨_, by rw [norm_obj_shape]⟩
      · rw [if_neg h1]
        by_cases h2 : pyStartsWith i "http" = false
        · rw [if_pos h2]
          exact ⟨_, by rw [norm_obj_shape]⟩
        · rw [if_neg h2]
          exact ⟨_, by rw [norm_obj_shape]⟩
    | null => cases hsafe
    | bool b => cases hsafe
    | num n => cases hsafe
    | arr xs => cases hsafe
    | obj fs => cases hsafe

theorem mkSchemaInfo_isSome (base name ver : String) (d : Json)
    (h : contentSafe (some d) = true) :
    (mkSchemaInfo base name ver d).isSome = true := by
  cases d with
  | obj fields =>
    obtain ⟨fields', hf⟩ := normalize_obj_some base name ver fields h
    unfold mkSchemaInfo
    rw [hf]
    rfl
  | null => cases h
  | bool b => cases h
  | num n => cases h
  | str s => cases h
  | arr xs => cases h

theorem discoverGo_cons_skip (base name : String) (f : RawFile)
    (rest : List RawFile) (acc : List SchemaInfo)
    (h : versionStemOk f.stem = false ∨ f.content = none) :
    discoverGo base name (f :: rest) acc = discoverGo base name rest acc := by
  conv =>
    lhs
    rw [discoverGo]
  rcases h with h | h
  · rw [if_pos h]
  · by_cases hstem : versionStemOk f.stem = false
    · rw [if_pos hstem]
    · rw [if_neg hstem, h]

theorem discoverGo_cons_some (base name : String) (f : RawFile)
    (rest : List RawFile) (acc : List SchemaInfo) (d : Json)
    (hstem : ¬ versionStemOk f.stem = false) (hc : f.content = some d) :
    discoverGo base name (f :: rest) acc =
      match mkSchemaInfo base name f.stem d with
      | none => none
      | some info => discoverGo base name rest (acc ++ [info]) := by
  conv =>
    lhs
    rw [discoverGo]
  rw [if_neg hstem, hc]

theorem discoverGo_isSome (base name : String) :
    ∀ (files : List RawFile) (acc : List SchemaInfo),
      (∀ f ∈ files, contentSafe f.content = true) →
      (discoverGo base name files acc).isSome = true := by
  intro files
  induction files with
  | nil => intro acc _; rfl
  | cons f rest ih =>
    intro acc hsafe
    have hf := hsafe f (List.mem_cons_self _ _)
    have hrest : ∀ g ∈ rest, contentSafe g.content = true :=
      fun g hg => hsafe g (List.mem_cons_of_mem _ hg)
    by_cases hstem : versionStemOk f.stem = false
    · rw [discoverGo_cons_skip base name f rest acc (Or.inl hstem)]
      exact ih acc hrest
    · rcases hc : f.content with _ | d
      · rw [discoverGo_cons_skip base name f rest acc (Or.inr hc)]
        exact ih acc hrest
      · rw [hc] at hf
        have hmk := mkSchemaInfo_isSome base name f.stem d hf
        obtain ⟨info, hinfo⟩ := Option.isSome_iff_exists.mp hmk
        rw [discoverGo_cons_some base name f rest acc d hstem hc, hinfo]
        exact ih (acc ++ [info]) hrest

theorem discoverGo_skip (base name : String) (f : RawFile)
    (hbad : versionStemOk f.stem = false ∨ f.content = none) :
    ∀ (l₁ l₂ : List RawFile) (acc : List SchemaInfo),
      discoverGo base name (l₁ ++ f :: l₂) acc = discoverGo base name (l₁ ++ l₂) acc := by
  intro l₁
  induction l₁ with
  | nil =>
    intro l₂ acc
    simp only [List.nil_append]
    exact discoverGo_cons_skip base name f l₂ acc hbad
  | cons g l₁ ih =>
    intro l₂ acc
    simp only [List.cons_append]
    by_cases hstem : versionStemOk g.stem = false
    · rw [discoverGo_cons_skip base name g _ acc (Or.inl hstem),
        discoverGo_cons_skip base name g _ acc (Or.inl hstem)]
      exact ih l₂ acc
    · rcases hc : g.content with _ | d
      · rw [discoverGo_cons_skip base name g _ acc (Or.inr hc),
          discoverGo_cons_skip base name g _ acc (Or.inr hc)]
        exact ih l₂ acc
      · rw [discoverGo_cons_some base name g _ acc d hstem hc,
          discoverGo_cons_some base name g _ acc d hstem hc]
        rcases hmk : mkSchemaInfo base name g.stem d with _ | info
        · rfl
        · exact ih l₂ (acc ++ [info])

/-- C8 (counterexample): a file whose body parses but is not a dict (here a
JSON array) raises an uncaught `AttributeError` (`schema_data.get` on a
list) that aborts the whole family scan — the valid sibling `v2.0.0` is
lost too — contradicting "only that single file is skipped" and "never
raises, whatever the content". -/
theorem c8_counterexample :
    _discover_versions "http://h" "w"
        [⟨"v1.0.0", some (Json.arr .nil)⟩, ⟨"v2.0.0", some (Json.obj .nil)⟩] = none
    ∧ _discover_versions "http://h" "w" [⟨"v2.0.0", some (Json.obj .nil)⟩] ≠ none := by
  decide

/-- C8 (amended): an unparseable body or a filename failing the
`v<major>.<minor>.<patch>` pattern causes exactly that file to be skipped
(removing it does not change the discovery result), and discovery of the
remaining files completes without raising — provided every parseable file
body is a dict whose `$id`, when present, is a string; a parseable non-dict
body or non-string `$id` instead raises an uncaught error that aborts the
family scan (see the counterexample). -/
theorem c8_discovery_skips_bad_files (base name : String) :
    (∀ files : List RawFile, (∀ f ∈ files, contentSafe f.content = true) →
      (_discover_versions base name files).isSome = true)
    ∧ (∀ (l₁ l₂ : List RawFile) (f : RawFile),
        versionStemOk f.stem = false ∨ f.content = none →
        _discover_versions base name (l₁ ++ f :: l₂)
          = _discover_versions base name (l₁ ++ l₂)) := by
  constructor
  · intro files hsafe
    unfold _discover_versions
    have h := discoverGo_isSome base name files [] hsafe
    obtain ⟨recs, hrecs⟩ := Option.isSome_iff_exists.mp h
    rw [hrecs]
    rfl
  · intro l₁ l₂ f hbad
    unfold _discover_versions
    rw [discoverGo_skip base name f hbad l₁ l₂ []]

/-- Witness for C8 (amended): one good file is discovered, and inserting an
unparseable file before it leaves the result unchanged. -/
theorem c8_discovery_skips_bad_files_witness :
    (_discover_versions "http://h" "w" [⟨"v1.0.0", some (Json.obj .nil)⟩]).isSome = true
    ∧ _discover_versions "http://h" "w"
        ([] ++ (⟨"v0.9.9", none⟩ : RawFile) :: [⟨"v1.0.0", some (Json.obj .nil)⟩])
      = _discover_versions "http://h" "w" ([] ++ [⟨"v1.0.0", some (Json.obj .nil)⟩]) :=
  ⟨(c8_discovery_skips_bad_files "http://h" "w").1
      [⟨"v1.0.0", some (Json.obj .nil)⟩] (by decide),
   (c8_discovery_skips_bad_files "http://h" "w").2
      [] [⟨"v1.0.0", some (Json.obj .nil)⟩] ⟨"v0.9.9", none⟩ (Or.inr rfl)⟩


end BondeJsonSchema
